import Mathlib

/-!
Verification of the agent-framework orchestration core: a shallow embedding of
the conversation memory (src/core/memory.py), the output parser
(src/core/parser.py), the query router (src/core/router.py) and the agent
dispatch pipeline (src/core/agent.py), together with theorems settling the
specification claims.

Conventions of the embedding:
* Python strings are Lean `String`s; character-level scanning works on
  `String.data` (`List Char`).
* `json.loads` is modelled by `jsonLoads`, a fuel-driven recursive-descent
  parser for the JSON fragment the framework exchanges (null, booleans,
  integers, strings with simple escapes, arrays, objects; the float syntax and
  the unicode escape are outside the fragment and make the decode fail, which
  the pipeline treats like any decode failure).  Fuel is always instantiated
  large enough (twice the input length) so that it never runs out.
* A language-model backend reply is an external input: it is modelled by an
  oracle `llm : Nat -> String` indexed by the number of model calls made so
  far, and the agent state carries instrumentation counters for model calls
  and tool executions.
* Python exceptions that escape a function are modelled with `Except PyError`;
  code that cannot raise is a plain function.
* `datetime.now()` is an external clock, passed as a `Nat` argument.
-/

namespace AgentFramework

/-! ### Characters used by the scanners (named to keep source text plain) -/

def bq : Char := Char.ofNat 96

def sq : Char := Char.ofNat 39

def dq : Char := Char.ofNat 34

def lb : Char := Char.ofNat 123

def rb : Char := Char.ofNat 125

def lbk : Char := Char.ofNat 91

def rbk : Char := Char.ofNat 93

def bsl : Char := Char.ofNat 92

/-- Python regex `\s` / `str.strip` whitespace (ASCII). -/
def isWs (c : Char) : Bool :=
  c = ' ' || c = '\t' || c = '\n' || c = '\r' || c = Char.ofNat 11 || c = Char.ofNat 12

/-- Python regex `\w` word characters (ASCII). -/
def isWord (c : Char) : Bool := c.isAlphanum || c = '_'

/-! ### Conversation memory (src/core/memory.py) -/

inductive Role where
  | user
  | assistant
  | system
deriving DecidableEq, Repr

/-- An entry of the `messages` log: a Python dict `{"role": ..., "content": ...}`. -/
structure Msg where
  role : Role
  content : String
deriving DecidableEq, Repr

/-- An entry of the `tool_results` log (timestamp from the external clock). -/
structure ToolRes where
  tool : String
  result : String
  timestamp : Nat
deriving DecidableEq, Repr

/-- An entry of the `router_decisions` log. -/
structure RouterDec where
  use_tool : Bool
  tool_name : Option String
  reasoning : String
  timestamp : Nat
deriving DecidableEq, Repr

/-- `ConversationMemory`: three logs plus the retention parameter. -/
structure Mem where
  messages : List Msg
  tool_results : List ToolRes
  router_decisions : List RouterDec
  max_turns : Nat
deriving DecidableEq, Repr

def emptyMem (k : Nat) : Mem := ⟨[], [], [], k⟩

/-- Python tail slice `l[-n:]`.  For `n = 0` the slice `l[-0:]` is `l[0:]`,
the whole list (the `-0` quirk of Python indexing). -/
def pySliceLast (n : Nat) (l : List α) : List α :=
  if n = 0 then l else l.drop (l.length - n)

/-- `_trim_if_needed` and the two inline log trims: keep the last
`max_turns * 2` entries once the log exceeds that bound. -/
def trim_if_needed (k : Nat) (l : List α) : List α :=
  if k * 2 < l.length then pySliceLast (k * 2) l else l

/-- One turn-append to the `messages` log: append, then trim.  Both mutating
message adds perform exactly this once their duplicate check has passed. -/
def appendTrim (k : Nat) (msgs : List Msg) (m : Msg) : List Msg :=
  trim_if_needed k (msgs ++ [m])

/-- `ConversationMemory.add_user_message`: skip if the most recent entry is a
user entry with identical content, else append and trim. -/
def add_user_message (mem : Mem) (s : String) : Mem :=
  let dup := match mem.messages.getLast? with
    | some m => m.role == Role.user && m.content == s
    | none => false
  if dup then mem
  else { mem with messages := appendTrim mem.max_turns mem.messages ⟨Role.user, s⟩ }

/-- `ConversationMemory.add_assistant_message`: skip if at least two entries
exist and the most recent is an assistant entry with identical content, else
append and trim. -/
def add_assistant_message (mem : Mem) (s : String) : Mem :=
  let dup := match mem.messages.getLast? with
    | some m => 2 ≤ mem.messages.length && m.role == Role.assistant && m.content == s
    | none => false
  if dup then mem
  else { mem with messages := appendTrim mem.max_turns mem.messages ⟨Role.assistant, s⟩ }

/-- `ConversationMemory.add_tool_result`: always append (with a timestamp),
then trim the tool-result log to the same bound. -/
def add_tool_result (mem : Mem) (name result : String) (ts : Nat) : Mem :=
  { mem with tool_results := trim_if_needed mem.max_turns (mem.tool_results ++ [⟨name, result, ts⟩]) }

/-- The message-mutating calls of the memory, for stating log invariants. -/
inductive MOp where
  | user (s : String)
  | assistant (s : String)

def applyOp (mem : Mem) : MOp → Mem
  | .user s => add_user_message mem s
  | .assistant s => add_assistant_message mem s

def applyOps (mem : Mem) (ops : List MOp) : Mem := ops.foldl applyOp mem

/-- No two adjacent entries of the log are identical. -/
def noAdjDup : List Msg → Bool
  | [] => true
  | [_] => true
  | a :: b :: rest => !(a == b) && noAdjDup (b :: rest)

/-- The last two entries of the log are identical (a repeated tail). -/
def tailDup : List Msg → Bool
  | [] => false
  | [_] => false
  | [a, b] => a == b
  | _ :: b :: c :: rest => tailDup (b :: c :: rest)

/-! ### JSON values (the result type of `json.loads` on the exchanged data).
`nan`, `inf` and `neginf` model the non-standard literals `NaN`, `Infinity`
and `-Infinity` that the Python decoder accepts. -/

inductive Json where
  | null
  | bool (b : Bool)
  | num (n : Int)
  | str (s : String)
  | arr (xs : List Json)
  | obj (fields : List (String × Json))
  | nan
  | inf
  | neginf

/-! ### Output parser (src/core/parser.py)

`OutputParser.parse_json` first extracts a candidate substring (fenced code
block, else first-to-last brace span, else the whole text), normalizes it
(strip, rewrite single-quoted keys, quote bare keys), and attempts a strict
decode; on failure it falls back to regex extraction of `"tool"`/
`"parameters"` patterns from the ORIGINAL text, and finally to an error
object.  Each regex of the source is embedded as a deterministic scanner with
the exact backtracking behaviour of the pattern. -/

/-- The next three characters are a code fence (three backticks). -/
def startsWithFence (l : List Char) : Bool :=
  match l with
  | a :: b :: c :: _ => a = bq && b = bq && c = bq
  | _ => false

/-- Split at the leftmost code fence: `(text before, text after the fence)`. -/
def splitAtFence : List Char → Option (List Char × List Char)
  | [] => none
  | c :: rest =>
    if startsWithFence (c :: rest) then some ([], (c :: rest).drop 3)
    else
      match splitAtFence rest with
      | some (a, b) => some (c :: a, b)
      | none => none

def rstripWs (l : List Char) : List Char := (l.reverse.dropWhile isWs).reverse

/-- Python `str.strip()`. -/
def stripWs (l : List Char) : List Char := rstripWs (l.dropWhile isWs)

/-- Attempt the fenced-block pattern right after an opening fence: optionally
the tag `json`, greedy whitespace, then a lazy capture up to the whitespace
preceding the next fence. -/
def tryFenceAt (afterOpen : List Char) : Option (List Char) :=
  let afterTag := if afterOpen.take 4 = "json".data then afterOpen.drop 4 else afterOpen
  let afterWs := afterTag.dropWhile isWs
  match splitAtFence afterWs with
  | some (before, _) => some (rstripWs before)
  | none => none

/-- Search for the fenced-block regex of the source: leftmost opening fence
from which the rest of the pattern matches; the captured interior. -/
def fencedSearch : List Char → Option (List Char)
  | [] => none
  | c :: rest =>
    if startsWithFence (c :: rest) then
      match tryFenceAt ((c :: rest).drop 3) with
      | some payload => some payload
      | none => fencedSearch rest
    else fencedSearch rest

/-- The prefix of `l` up to and including the last occurrence of `c`. -/
def uptoLast (c : Char) (l : List Char) : Option (List Char) :=
  let r := l.reverse.dropWhile (fun x => !(x = c))
  if r.isEmpty then none else some r.reverse

/-- Search for the brace-span regex: from the leftmost opening brace to the
last closing brace after it (the greedy capture of the source pattern). -/
def braceSearch : List Char → Option (List Char)
  | [] => none
  | c :: rest =>
    if c = lb then
      match uptoLast rb rest with
      | some body => some (lb :: body)
      | none => none
    else braceSearch rest

/-- Split at the first occurrence of `c`: `(before, after)`, `c` excluded. -/
def splitOnChar (c : Char) : List Char → Option (List Char × List Char)
  | [] => none
  | x :: xs =>
    if x = c then some ([], xs)
    else
      match splitOnChar c xs with
      | some (a, b) => some (x :: a, b)
      | none => none

/-- One pass of the substitution rewriting a single-quoted key followed by a
colon into a double-quoted key.  The fuel is one unit per scanned character;
the wrapper supplies the input length, which never runs out. -/
def fixQuotedKeysF : Nat → List Char → List Char
  | 0, l => l
  | _ + 1, [] => []
  | f + 1, x :: xs =>
    if x = sq then
      match splitOnChar sq xs with
      | some (inner, afterQ) =>
        match afterQ with
        | a :: rest2 =>
          if a = ':' then dq :: (inner ++ dq :: ':' :: fixQuotedKeysF f rest2)
          else x :: fixQuotedKeysF f xs
        | [] => x :: fixQuotedKeysF f xs
      | none => x :: fixQuotedKeysF f xs
    else x :: fixQuotedKeysF f xs

def fixQuotedKeys (l : List Char) : List Char := fixQuotedKeysF l.length l

/-- Match the bare-key pattern at the head of `l`: a whitespace run, a
nonempty word run, a whitespace run, then a colon. -/
def matchKeyAt (l : List Char) : Option (List Char × List Char × List Char × List Char) :=
  let ws1 := l.takeWhile isWs
  let r1 := l.dropWhile isWs
  let word := r1.takeWhile isWord
  let r2 := r1.dropWhile isWord
  if word.isEmpty then none
  else
    let ws2 := r2.takeWhile isWs
    let r3 := r2.dropWhile isWs
    match r3 with
    | a :: rest => if a = ':' then some (ws1, word, ws2, rest) else none
    | [] => none

/-- The substitution quoting bare keys before a colon. -/
def quoteBareKeysF : Nat → List Char → List Char
  | 0, l => l
  | _ + 1, [] => []
  | f + 1, x :: xs =>
    match matchKeyAt (x :: xs) with
    | some (ws1, word, ws2, rest) =>
      ws1 ++ dq :: (word ++ dq :: (ws2 ++ ':' :: quoteBareKeysF f rest))
    | none => x :: quoteBareKeysF f xs

def quoteBareKeys (l : List Char) : List Char := quoteBareKeysF l.length l

/-! #### Strict decode (`json.loads`) -/

def skipWs (l : List Char) : List Char := l.dropWhile isWs

/-- A JSON string escape after a backslash (the unicode escape is outside the
modelled fragment). -/
def escChar (c : Char) : Option Char :=
  if c = dq then some dq
  else if c = bsl then some bsl
  else if c = '/' then some '/'
  else if c = 'n' then some '\n'
  else if c = 't' then some '\t'
  else if c = 'r' then some '\r'
  else if c = 'b' then some (Char.ofNat 8)
  else if c = 'f' then some (Char.ofNat 12)
  else none

/-- Parse a JSON string body after the opening quote, up to and including the
closing quote; returns the decoded content and the remainder. -/
def parseStringBody : List Char → Option (List Char × List Char)
  | [] => none
  | c :: rest =>
    if c = dq then some ([], rest)
    else if c = bsl then
      match rest with
      | [] => none
      | e :: rest2 =>
        match escChar e with
        | some ch =>
          match parseStringBody rest2 with
          | some (s, r) => some (ch :: s, r)
          | none => none
        | none => none
    else
      match parseStringBody rest with
      | some (s, r) => some (c :: s, r)
      | none => none

def digitsToNat (l : List Char) : Nat :=
  l.foldl (fun acc c => acc * 10 + (c.toNat - 48)) 0

def mkInt (neg : Bool) (ds : List Char) : Int :=
  if neg then -(digitsToNat ds : Int) else (digitsToNat ds : Int)

/-- Parse a JSON integer literal (floats are outside the modelled fragment,
so a fraction or exponent makes the decode fail). -/
def parseNumber (l : List Char) : Option (Int × List Char) :=
  let p := match l with
    | c :: rest => if c = '-' then (true, rest) else (false, l)
    | [] => (false, l)
  let ds := p.2.takeWhile Char.isDigit
  let rest := p.2.dropWhile Char.isDigit
  if ds.isEmpty then none
  else if 2 ≤ ds.length && ds.headD '0' = '0' then none
  else
    match rest with
    | c :: _ => if c = '.' || c = 'e' || c = 'E' then none else some (mkInt p.1 ds, rest)
    | [] => some (mkInt p.1 ds, rest)

/-- Python dict assignment `d[k] = v`: overwrite in place or append. -/
def assocSet (fields : List (String × Json)) (k : String) (v : Json) : List (String × Json) :=
  if fields.any (fun p => p.1 == k) then
    fields.map (fun p => if p.1 == k then (k, v) else p)
  else fields ++ [(k, v)]

mutual

/-- Recursive-descent JSON value parser.  Fuel decreases by one on every
(mutual) recursive call; the top-level wrapper provides twice the input
length, which is always sufficient because every parsed value or member
consumes at least one character. -/
def parseVal : Nat → List Char → Option (Json × List Char)
  | 0, _ => none
  | f + 1, l0 =>
    let l := skipWs l0
    match l with
    | [] => none
    | c :: rest =>
      if c = lb then
        let r := skipWs rest
        match r with
        | c2 :: rest2 => if c2 = rb then some (Json.obj [], rest2) else parseMembers f [] r
        | [] => none
      else if c = lbk then
        let r := skipWs rest
        match r with
        | c2 :: rest2 => if c2 = rbk then some (Json.arr [], rest2) else parseElems f [] r
        | [] => none
      else if c = dq then
        match parseStringBody rest with
        | some (s, r) => some (Json.str (String.mk s), r)
        | none => none
      else if l.take 9 = "-Infinity".data then some (Json.neginf, l.drop 9)
      else if c = '-' || c.isDigit then
        match parseNumber l with
        | some (n, r) => some (Json.num n, r)
        | none => none
      else if l.take 4 = "null".data then some (Json.null, l.drop 4)
      else if l.take 4 = "true".data then some (Json.bool true, l.drop 4)
      else if l.take 5 = "false".data then some (Json.bool false, l.drop 5)
      else if l.take 3 = "NaN".data then some (Json.nan, l.drop 3)
      else if l.take 8 = "Infinity".data then some (Json.inf, l.drop 8)
      else none

/-- Object members: expects a key string at the head (whitespace already
skipped), accumulating the fields with dict-assignment semantics. -/
def parseMembers : Nat → List (String × Json) → List Char → Option (Json × List Char)
  | 0, _, _ => none
  | f + 1, acc, l =>
    match l with
    | c :: rest =>
      if c = dq then
        match parseStringBody rest with
        | some (k, r1) =>
          let r2 := skipWs r1
          match r2 with
          | c2 :: r3 =>
            if c2 = ':' then
              match parseVal f r3 with
              | some (v, r4) =>
                let acc2 := assocSet acc (String.mk k) v
                let r5 := skipWs r4
                match r5 with
                | c3 :: r6 =>
                  if c3 = ',' then parseMembers f acc2 (skipWs r6)
                  else if c3 = rb then some (Json.obj acc2, r6)
                  else none
                | [] => none
              | none => none
            else none
          | [] => none
        | none => none
      else none
    | [] => none

/-- Array elements. -/
def parseElems : Nat → List Json → List Char → Option (Json × List Char)
  | 0, _, _ => none
  | f + 1, acc, l =>
    match parseVal f l with
    | some (v, r) =>
      let r2 := skipWs r
      match r2 with
      | c :: r3 =>
        if c = ',' then parseElems f (acc ++ [v]) r3
        else if c = rbk then some (Json.arr (acc ++ [v]), r3)
        else none
      | [] => none
    | none => none

end

/-- `json.loads`: a single value, possibly surrounded by whitespace; anything
further is an error (`Extra data`). -/
def jsonLoads (l : List Char) : Option Json :=
  match parseVal (2 * l.length + 2) l with
  | some (v, rest) => if (skipWs rest).isEmpty then some v else none
  | none => none

/-! #### Regex fallback of the except-branch -/

/-- Match the pattern `"tool" ws : ws "name"` at the head of `l`, capturing
the nonempty name. -/
def matchToolAt (l : List Char) : Option (List Char) :=
  if l.take 6 = "\"tool\"".data then
    let r1 := (l.drop 6).dropWhile isWs
    match r1 with
    | c :: r2 =>
      if c = ':' then
        let r3 := r2.dropWhile isWs
        match r3 with
        | c2 :: r4 =>
          if c2 = dq then
            let name := r4.takeWhile (fun x => !(x = dq))
            let r5 := r4.dropWhile (fun x => !(x = dq))
            if name.isEmpty then none
            else if r5.isEmpty then none
            else some name
          else none
        | [] => none
      else none
    | [] => none
  else none

def toolSearch : List Char → Option (List Char)
  | [] => none
  | c :: rest =>
    match matchToolAt (c :: rest) with
    | some name => some name
    | none => toolSearch rest

/-- Match the pattern `"parameters" ws : ws \x7b body \x7d` at the head of
`l`, capturing the nonempty brace-free body. -/
def matchParamsAt (l : List Char) : Option (List Char) :=
  if l.take 12 = "\"parameters\"".data then
    let r1 := (l.drop 12).dropWhile isWs
    match r1 with
    | c :: r2 =>
      if c = ':' then
        let r3 := r2.dropWhile isWs
        match r3 with
        | c2 :: r4 =>
          if c2 = lb then
            let body := r4.takeWhile (fun x => !(x = rb))
            let r5 := r4.dropWhile (fun x => !(x = rb))
            if body.isEmpty then none
            else if r5.isEmpty then none
            else some body
          else none
        | [] => none
      else none
    | [] => none
  else none

def paramsSearch : List Char → Option (List Char)
  | [] => none
  | c :: rest =>
    match matchParamsAt (c :: rest) with
    | some b => some b
    | none => paramsSearch rest

/-- Match one key-value pair `"key" ws : ws ("text" | digits)`; a quoted
value is unquoted, an all-digit value is coerced to an integer. -/
def matchKvAt (l : List Char) : Option ((String × Json) × List Char) :=
  match l with
  | c :: rest =>
    if c = dq then
      let key := rest.takeWhile (fun x => !(x = dq))
      let r1 := rest.dropWhile (fun x => !(x = dq))
      if key.isEmpty then none
      else
        match r1 with
        | _ :: r2 =>
          let r3 := r2.dropWhile isWs
          match r3 with
          | c3 :: r4 =>
            if c3 = ':' then
              let r5 := r4.dropWhile isWs
              match r5 with
              | c4 :: r6 =>
                if c4 = dq then
                  let v := r6.takeWhile (fun x => !(x = dq))
                  let r7 := r6.dropWhile (fun x => !(x = dq))
                  match r7 with
                  | _ :: r8 => some ((String.mk key, Json.str (String.mk v)), r8)
                  | [] => none
                else if c4.isDigit then
                  let ds := r5.takeWhile Char.isDigit
                  let r7 := r5.dropWhile Char.isDigit
                  some ((String.mk key, Json.num (digitsToNat ds : Int)), r7)
                else none
              | [] => none
            else none
          | [] => none
        | [] => none
    else none
  | [] => none

/-- All non-overlapping key-value matches, left to right, assembled with dict
semantics.  One fuel unit per scanned character. -/
def kvScanF : Nat → List (String × Json) → List Char → List (String × Json)
  | 0, acc, _ => acc
  | _ + 1, acc, [] => acc
  | f + 1, acc, c :: rest =>
    match matchKvAt (c :: rest) with
    | some ((k, v), r) => kvScanF f (assocSet acc k v) r
    | none => kvScanF f acc rest

def kvPairs (l : List Char) : List (String × Json) := kvScanF l.length [] l

/-- The error object of the final failure path (the exception text in the
`error` field is abstracted to a fixed message). -/
def errorObj (text : String) : Json :=
  Json.obj [("error", Json.str "Failed to parse output"), ("original_text", Json.str text)]

/-- Candidate selection of the try-branch: fenced block, else brace span,
else the whole text. -/
def candidateOf (t : List Char) : List Char :=
  match fencedSearch t with
  | some s => s
  | none =>
    match braceSearch t with
    | some s => s
    | none => t

/-- The candidate after the three clean-up steps (strip, single-quoted key
rewrite, bare-key quoting). -/
def normalizedOf (t : List Char) : List Char :=
  quoteBareKeys (fixQuotedKeys (stripWs (candidateOf t)))

/-- The manual extraction of the except-branch, applied to the original
text: a `"tool"` pattern, and if present a `"parameters"` span mined for
key-value pairs. -/
def fallbackExtract (t : List Char) : Option Json :=
  match toolSearch t with
  | some name =>
    let params := match paramsSearch t with
      | some body => kvPairs body
      | none => []
    some (Json.obj [("tool", Json.str (String.mk name)), ("parameters", Json.obj params)])
  | none => none

/-- `OutputParser.parse_json`. -/
def parse_json (text : String) : Json :=
  match jsonLoads (normalizedOf text.data) with
  | some v => v
  | none =>
    match fallbackExtract text.data with
    | some a => a
    | none => errorObj text

/-! ### Python value helpers for the router and agent -/

/-- Python truthiness of a decoded value. -/
def pyTruthy : Json → Bool
  | .null => false
  | .bool b => b
  | .num n => !(n == 0)
  | .str s => !(s == "")
  | .arr xs => !xs.isEmpty
  | .obj fs => !fs.isEmpty
  | .nan => true
  | .inf => true
  | .neginf => true

/-- Exceptions that can escape the modelled agent code. -/
inductive PyError where
  | typeError
  | keyError
deriving DecidableEq, Repr

def listStarts (p l : List Char) : Bool :=
  match p, l with
  | [], _ => true
  | _ :: _, [] => false
  | a :: ps, b :: ls => a == b && listStarts ps ls

def listSubstr (p : List Char) : List Char → Bool
  | [] => p.isEmpty
  | c :: rest => listStarts p (c :: rest) || listSubstr p rest

/-- Python `needle in hay` on strings (substring test). -/
def pyInStr (needle hay : String) : Bool := listSubstr needle.data hay.data

/-- Python `str.lower()` (ASCII). -/
def pyLower (s : String) : String := String.mk (s.data.map Char.toLower)

/-- Python `key in value` (raises `TypeError` on non-container values). -/
def pyIn (key : String) (j : Json) : Except PyError Bool :=
  match j with
  | .obj fields => .ok (fields.any (fun p => p.1 == key))
  | .arr xs => .ok (xs.any (fun x => match x with | .str s => s == key | _ => false))
  | .str s => .ok (pyInStr key s)
  | _ => .error .typeError

/-- Python `value[key]` with a string key. -/
def pySubscript (j : Json) (key : String) : Except PyError Json :=
  match j with
  | .obj fields =>
    match fields.find? (fun p => p.1 == key) with
    | some p => .ok p.2
    | none => .error .keyError
  | _ => .error .typeError

/-- Python `dict.get(key, default)`. -/
def objGet (fields : List (String × Json)) (k : String) (dflt : Json) : Json :=
  match fields.find? (fun p => p.1 == k) with
  | some p => p.2
  | none => dflt

/-- Python f-string rendering of a decoded value (container repr abstracted;
the agent only ever formats strings on the paths under study). -/
def pyStr : Json → String
  | .str s => s
  | .bool true => "True"
  | .bool false => "False"
  | .null => "None"
  | .num n => toString n
  | .nan => "nan"
  | .inf => "inf"
  | .neginf => "-inf"
  | .arr _ => "<list>"
  | .obj _ => "<dict>"

/-! ### Tool registry (src/tools/registry.py)

A registered tool is its asynchronous `execute`, modelled as a function from
the keyword-argument object to the returned text. -/

structure Tool where
  execute : Json → String

/-- The process-wide registry: name to tool implementation. -/
abbrev Registry := List (String × Tool)

/-- `ToolRegistry.get_tool(name)`: `None` unless `name` is a string key of
the registry mapping. -/
def get_tool (reg : Registry) (name : Json) : Option (String × Tool) :=
  match name with
  | .str s => List.find? (fun p => p.1 == s) reg
  | _ => none

/-! ### Query router (src/core/router.py)

The language model is an oracle `llm : Nat -> String` indexed by the running
count of model calls; the text of the routing prompt does not influence the
oracle and is not reconstructed.  `should_use_tools` returns the decision
pair together with the updated call count. -/

def should_use_tools (reg : Registry) (llm : Nat → String) (calls : Nat)
    (_query : String) : (Json × Json) × Nat :=
  if reg.isEmpty then ((Json.bool false, Json.null), calls)
  else
    let response := llm calls
    match jsonLoads response.data with
    | some (Json.obj fields) =>
      ((objGet fields "use_tool" (Json.bool false), objGet fields "tool_name" Json.null),
        calls + 1)
    | _ => ((Json.bool false, Json.null), calls + 1)

/-! ### Agent (src/core/agent.py) -/

/-- Agent-visible state: the memory plus instrumentation counters for model
calls and tool executions. -/
structure AgentSt where
  memory : Mem
  calls : Nat
  execs : Nat
deriving DecidableEq, Repr

/-- Python truthiness of the `tool_result` variable (`None` or a string). -/
def truthyRes : Option String → Bool
  | none => false
  | some s => !(s == "")

/-- The category inference of the news fallback: scan the lowercased user
input for fixed keywords, first match wins. -/
def newsCategory (user_input : String) : Json :=
  let low := pyLower user_input
  if pyInStr "technology" low || pyInStr "tech" low then Json.str "technology"
  else if pyInStr "business" low then Json.str "business"
  else if pyInStr "sports" low then Json.str "sports"
  else Json.null

/-- The tail of `Agent._process_with_tools` after the parsed-action block:
the direct execution of the suggested tool when no (truthy) tool result
exists, then either the follow-up model call or the raw reply. -/
def finishTools (reg : Registry) (llm : Nat → String) (st0 : AgentSt)
    (user_input : String) (suggested : Json) (tool_result : Option String)
    (tool_response : String) : String × AgentSt :=
  let p :=
    if !truthyRes tool_result && pyTruthy suggested then
      match get_tool reg suggested with
      | some (_, tool) =>
        match suggested with
        | Json.str s =>
          if s == "TimestampTool" then
            (some (tool.execute (Json.obj [])), st0.execs + 1)
          else if pyInStr "NewsTool" s then
            (some (tool.execute (Json.obj [("category", newsCategory user_input)])),
              st0.execs + 1)
          else (tool_result, st0.execs)
        | _ => (tool_result, st0.execs)
      | none => (tool_result, st0.execs)
    else (tool_result, st0.execs)
  let st1 : AgentSt := { st0 with execs := p.2 }
  if truthyRes p.1 then
    let final_response := llm st1.calls
    (final_response,
      { st1 with calls := st1.calls + 1,
                 memory := add_assistant_message st1.memory final_response })
  else
    (tool_response, { st1 with memory := add_assistant_message st1.memory tool_response })

/-- `Agent._process_with_tools`: one model call for the action, parse, then
the parsed-action block (not-found error, or execution and tool-result
recording), then `finishTools`.  The prompt text sent to the model does not
influence the oracle and is not reconstructed. -/
def process_with_tools (reg : Registry) (llm : Nat → String) (clock : Nat)
    (st0 : AgentSt) (user_input : String) (suggested : Json) :
    Except PyError (String × AgentSt) := do
  let tool_response := llm st0.calls
  let st1 : AgentSt := { st0 with calls := st0.calls + 1 }
  let action := parse_json tool_response
  let hasTool ← pyIn "tool" action
  let hasBoth ← if hasTool then pyIn "parameters" action else pure false
  if hasBoth then
    let toolNameJ ← pySubscript action "tool"
    let paramsJ ← pySubscript action "parameters"
    match get_tool reg toolNameJ with
    | none =>
      let error_msg := "Error: Tool '" ++ pyStr toolNameJ ++ "' not found"
      return (error_msg, { st1 with memory := add_assistant_message st1.memory error_msg })
    | some (name, tool) =>
      match paramsJ with
      | Json.obj _ =>
        let tool_result := tool.execute paramsJ
        let st2 : AgentSt :=
          { st1 with execs := st1.execs + 1,
                     memory := add_tool_result st1.memory name tool_result clock }
        return finishTools reg llm st2 user_input suggested (some tool_result) tool_response
      | _ => throw PyError.typeError
  else
    return finishTools reg llm st1 user_input suggested none tool_response

/-- `Agent._process_conversation`: one model call, reply appended to memory
(the conversational prompt and the recent-tool-result context only shape the
prompt text, which does not influence the oracle). -/
def process_conversation (llm : Nat → String) (st : AgentSt)
    (_user_input : String) : String × AgentSt :=
  let response := llm st.calls
  (response,
    { st with calls := st.calls + 1, memory := add_assistant_message st.memory response })

/-- `Agent.run`: append the user input, route, then dispatch with tools
(with or without a suggested tool) or converse. -/
def Agent.run (reg : Registry) (llm : Nat → String) (clock : Nat) (st0 : AgentSt)
    (user_input : String) : Except PyError (String × AgentSt) :=
  let st1 : AgentSt := { st0 with memory := add_user_message st0.memory user_input }
  let d := should_use_tools reg llm st1.calls user_input
  let use_tool := d.1.1
  let suggested := d.1.2
  let st2 : AgentSt := { st1 with calls := d.2 }
  if pyTruthy use_tool && pyTruthy suggested then
    process_with_tools reg llm clock st2 user_input suggested
  else if pyTruthy use_tool then
    process_with_tools reg llm clock st2 user_input Json.null
  else
    .ok (process_conversation llm st2 user_input)

/-- The shape of the error object the parser degrades to. -/
def isErrorObjShape : Json → Bool
  | Json.obj [("error", _), ("original_text", _)] => true
  | _ => false

/-- Canonical serialization of the parameter fields of a structured action:
double-quoted keys and values, one space after each colon and comma. -/
def serializeFields : List (String × String) → List Char
  | [] => []
  | [(k, v)] => [dq] ++ k.data ++ ("\": \"").data ++ v.data ++ [dq]
  | (k, v) :: rest =>
    [dq] ++ k.data ++ ("\": \"").data ++ v.data ++ ("\", ").data ++ serializeFields rest

/-- Canonical serialization of a structured action object, the well-formed
form the system prompt requests from the model. -/
def serializeAction (tool : String) (ps : List (String × String)) : List Char :=
  ("\x7b\"tool\": \"").data ++ tool.data ++ ("\", \"parameters\": \x7b").data ++
    serializeFields ps ++ ("\x7d\x7d").data

/-- The decoded value of a structured action. -/
def actionJson (tool : String) (ps : List (String × String)) : Json :=
  Json.obj [("tool", Json.str tool),
    ("parameters", Json.obj (ps.map (fun kv => (kv.1, Json.str kv.2))))]

/-- The character set of a serialized action: alphanumerics and the JSON
punctuation of the canonical form. -/
def okChar (c : Char) : Bool :=
  c.isAlphanum || c = dq || c = ':' || c = ' ' || c = ',' || c = lb || c = rb

/-- The adjacent-pair relation under which the bare-key rewrite is the
identity: every colon is directly preceded by a double quote. -/
def gpair (a b : Char) : Prop := b = ':' → a = dq

instance : DecidableRel gpair := fun a b =>
  inferInstanceAs (Decidable (b = ':' → a = dq))

/-- Boolean check of `gpair` along a list (the Chain-prime instance of the
library does not evaluate, this one does). -/
def gchainB : List Char → Bool
  | [] => true
  | [_] => true
  | a :: b :: l => decide (gpair a b) && gchainB (b :: l)

/-- The state invariant that the message log maintains once a conversation
has started with a user message: no adjacent duplicates, the log is
nonempty, and a log of length one holds a user entry. -/
def memInv (l : List Msg) : Prop :=
  noAdjDup l = true ∧ l ≠ [] ∧ (l.length = 1 → ∀ m ∈ l, m.role = Role.user)

/-! ### Theorems -/

theorem pySliceLast_eq_rtake {n : Nat} (hn : n ≠ 0) (l : List α) :
    pySliceLast n l = l.rtake n := by
  simp [pySliceLast, hn, List.rtake]

theorem rtake_of_length_le {n : Nat} {l : List α} (h : l.length ≤ n) :
    l.rtake n = l := by
  simp [List.rtake, Nat.sub_eq_zero_of_le h]

theorem length_rtake (n : Nat) (l : List α) :
    (l.rtake n).length = min n l.length := by
  rw [List.rtake, List.length_drop]
  omega

theorem rtake_append_absorb (n : Nat) (a b : List α) :
    ((a.rtake n) ++ b).rtake n = (a ++ b).rtake n := by
  rw [List.rtake_eq_reverse_take_reverse, List.rtake_eq_reverse_take_reverse,
    List.rtake_eq_reverse_take_reverse]
  rw [List.reverse_append, List.reverse_reverse, List.reverse_append]
  rw [List.take_append_eq_append_take, List.take_append_eq_append_take, List.take_take]
  have hmin : min (n - b.reverse.length) n = n - b.reverse.length := by omega
  rw [hmin]

theorem appendTrim_eq_rtake {k : Nat} (hk : 1 ≤ k) (msgs : List Msg) (m : Msg) :
    appendTrim k msgs m = (msgs ++ [m]).rtake (k * 2) := by
  unfold appendTrim trim_if_needed
  by_cases hlt : k * 2 < (msgs ++ [m]).length
  · rw [if_pos hlt, pySliceLast_eq_rtake (by omega)]
  · rw [if_neg hlt, rtake_of_length_le (by omega)]

theorem foldl_appendTrim {k : Nat} (hk : 1 ≤ k) :
    ∀ (ms : List Msg) (init : List Msg), init.length ≤ k * 2 →
      List.foldl (appendTrim k) init ms = (init ++ ms).rtake (k * 2)
  | [], init, h => by
    simp [rtake_of_length_le h]
  | m :: rest, init, h => by
    rw [List.foldl_cons, appendTrim_eq_rtake hk init m,
      foldl_appendTrim hk rest _ (by rw [length_rtake]; omega)]
    rw [rtake_append_absorb]
    simp

/-- C2 (amended; the source trim slice `messages[-max_turns * 2:]` is the
whole list when `max_turns = 0`, so the claim holds for `max_turns` at least
one): for every `max_turns = k` with `1 ≤ k` and every sequence of more than
`2k` turn-appends to the messages log, the resulting log has exactly `2k`
entries and retains exactly the most recent `2k` appended messages, in
order, oldest evicted first. -/
theorem turn_append_fifo (k : Nat) (ms : List Msg) (hk : 1 ≤ k)
    (h : k * 2 < ms.length) :
    List.foldl (appendTrim k) [] ms = ms.drop (ms.length - k * 2) ∧
      (List.foldl (appendTrim k) [] ms).length = k * 2 := by
  have hfold := foldl_appendTrim hk ms [] (by simp)
  simp only [List.nil_append] at hfold
  refine ⟨hfold.trans rfl, ?_⟩
  rw [hfold, length_rtake]
  omega

/-- C2 witness: with `max_turns = 1` and three appends, exactly the last two
messages are retained. -/
theorem turn_append_fifo_witness :
    (1 ≤ 1 ∧ 1 * 2 < ([⟨Role.user, "a"⟩, ⟨Role.assistant, "b"⟩, ⟨Role.user, "c"⟩] : List Msg).length) ∧
      (List.foldl (appendTrim 1) [] [⟨Role.user, "a"⟩, ⟨Role.assistant, "b"⟩, ⟨Role.user, "c"⟩] =
        ([⟨Role.user, "a"⟩, ⟨Role.assistant, "b"⟩, ⟨Role.user, "c"⟩] : List Msg).drop
          (([⟨Role.user, "a"⟩, ⟨Role.assistant, "b"⟩, ⟨Role.user, "c"⟩] : List Msg).length - 1 * 2) ∧
        (List.foldl (appendTrim 1) [] [⟨Role.user, "a"⟩, ⟨Role.assistant, "b"⟩, ⟨Role.user, "c"⟩]).length = 1 * 2) :=
  ⟨⟨by decide, by decide⟩,
    turn_append_fifo 1 [⟨Role.user, "a"⟩, ⟨Role.assistant, "b"⟩, ⟨Role.user, "c"⟩]
      (by decide) (by decide)⟩

/-- C2 counterexample: with `max_turns = 0`, one turn-append leaves one
message in the log, not `2 * 0 = 0` — the Python tail slice `[-0:]` keeps
the whole list, so no trimming ever happens at `max_turns = 0`. -/
theorem turn_append_fifo_cex :
    (List.foldl (appendTrim 0) [] [(⟨Role.user, "a"⟩ : Msg)]).length ≠ 0 * 2 := by
  decide

theorem andE {a b : Bool} (h : (a && b) = true) : a = true ∧ b = true := by
  simp only [Bool.and_eq_true] at h
  exact h

theorem noAdjDup_tail {a : Msg} {rest : List Msg} (h : noAdjDup (a :: rest) = true) :
    noAdjDup rest = true := by
  cases rest with
  | nil => rfl
  | cons b r =>
    have h' : (!(a == b) && noAdjDup (b :: r)) = true := h
    exact (andE h').2

theorem noAdjDup_append : ∀ (l : List Msg) (m : Msg), noAdjDup l = true →
    (∀ x, l.getLast? = some x → ¬ x = m) → noAdjDup (l ++ [m]) = true
  | [], _, _, _ => rfl
  | [a], m, _, hl => by
    have hne : ¬ a = m := hl a rfl
    show (!(a == m) && noAdjDup [m]) = true
    simp [noAdjDup, hne]
  | a :: b :: rest, m, h, hl => by
    have h' : (!(a == b) && noAdjDup (b :: rest)) = true := h
    have hrec : noAdjDup ((b :: rest) ++ [m]) = true :=
      noAdjDup_append (b :: rest) m (andE h').2
        (fun x hx => hl x (by rw [List.getLast?_cons_cons]; exact hx))
    show (!(a == b) && noAdjDup ((b :: rest) ++ [m])) = true
    rw [hrec, Bool.and_true]
    exact (andE h').1

theorem noAdjDup_drop : ∀ (n : Nat) (l : List Msg), noAdjDup l = true →
    noAdjDup (l.drop n) = true
  | 0, _, h => h
  | _ + 1, [], _ => rfl
  | n + 1, _ :: rest, h => noAdjDup_drop n rest (noAdjDup_tail h)

theorem tailDup_false_of_noAdjDup : ∀ (l : List Msg), noAdjDup l = true →
    tailDup l = false
  | [], _ => rfl
  | [_], _ => rfl
  | [a, b], h => by
    have h' : (!(a == b) && noAdjDup [b]) = true := h
    have := (andE h').1
    show (a == b) = false
    simpa using this
  | _ :: b :: c :: rest, h =>
    tailDup_false_of_noAdjDup (b :: c :: rest) (noAdjDup_tail h)

theorem memInv_of_append (msgs : List Msg) (new : Msg)
    (happ : noAdjDup (msgs ++ [new]) = true)
    (hrole : msgs = [] → new.role = Role.user) :
    memInv (msgs ++ [new]) := by
  refine ⟨happ, by simp, ?_⟩
  intro h1 m hm
  have hnil : msgs = [] := by
    cases msgs with
    | nil => rfl
    | cons x xs => rw [List.length_append] at h1; simp at h1
  subst hnil
  simp at hm
  rw [hm]
  exact hrole rfl

theorem memInv_appendTrim (k : Nat) (msgs : List Msg) (new : Msg)
    (hd : noAdjDup msgs = true)
    (hlast : ∀ x, msgs.getLast? = some x → ¬ x = new)
    (hrole : msgs = [] → new.role = Role.user) :
    memInv (appendTrim k msgs new) := by
  have happ : noAdjDup (msgs ++ [new]) = true := noAdjDup_append msgs new hd hlast
  show memInv (trim_if_needed k (msgs ++ [new]))
  unfold trim_if_needed
  by_cases hlt : k * 2 < (msgs ++ [new]).length
  · rw [if_pos hlt]
    by_cases hz : k * 2 = 0
    · unfold pySliceLast
      rw [if_pos hz]
      exact memInv_of_append msgs new happ hrole
    · unfold pySliceLast
      rw [if_neg hz]
      have hlen : ((msgs ++ [new]).drop ((msgs ++ [new]).length - k * 2)).length = k * 2 := by
        rw [List.length_drop]; omega
      refine ⟨noAdjDup_drop _ _ happ, ?_, ?_⟩
      · exact List.length_pos.mp (by omega)
      · intro h1 m _
        exfalso
        omega
  · rw [if_neg hlt]
    exact memInv_of_append msgs new happ hrole

theorem add_user_message_messages (mem : Mem) (s : String) :
    (add_user_message mem s).messages = mem.messages ∨
    ((add_user_message mem s).messages =
        appendTrim mem.max_turns mem.messages ⟨Role.user, s⟩ ∧
      ∀ x, mem.messages.getLast? = some x → ¬ x = (⟨Role.user, s⟩ : Msg)) := by
  unfold add_user_message
  cases hL : mem.messages.getLast? with
  | none =>
    right
    refine ⟨by simp [hL], ?_⟩
    intro x hx
    cases hx
  | some x =>
    by_cases hd : (x.role == Role.user && x.content == s) = true
    · left
      simp [hL, hd]
    · right
      refine ⟨by simp [hL, hd], ?_⟩
      intro y hy hxy
      injection hy with hyx
      apply hd
      rw [← hyx] at hxy
      rw [hxy]
      simp

theorem add_assistant_message_messages (mem : Mem) (s : String) :
    (add_assistant_message mem s).messages = mem.messages ∨
    ((add_assistant_message mem s).messages =
        appendTrim mem.max_turns mem.messages ⟨Role.assistant, s⟩ ∧
      ∀ x, mem.messages.getLast? = some x → x = (⟨Role.assistant, s⟩ : Msg) →
        mem.messages.length ≤ 1) := by
  unfold add_assistant_message
  cases hL : mem.messages.getLast? with
  | none =>
    right
    refine ⟨by simp [hL], ?_⟩
    intro x hx
    cases hx
  | some x =>
    by_cases hd : (decide (2 ≤ mem.messages.length) && x.role == Role.assistant
        && x.content == s) = true
    · left
      simp only [hL]
      rw [if_pos hd]
    · right
      constructor
      · simp only [hL]
        rw [if_neg hd]
      · intro y hy hye
        injection hy with hyx
        by_contra hlen
        apply hd
        rw [← hyx] at hye
        rw [hye]
        simp
        omega


theorem memInv_applyOp (mem : Mem) (op : MOp) (h : memInv mem.messages) :
    memInv (applyOp mem op).messages := by
  cases op with
  | user s =>
    show memInv (add_user_message mem s).messages
    rcases add_user_message_messages mem s with heq | ⟨heq, hlast⟩
    · rw [heq]; exact h
    · rw [heq]
      exact memInv_appendTrim _ _ _ h.1 hlast (fun _ => rfl)
  | assistant s =>
    show memInv (add_assistant_message mem s).messages
    rcases add_assistant_message_messages mem s with heq | ⟨heq, hlast⟩
    · rw [heq]; exact h
    · rw [heq]
      refine memInv_appendTrim _ _ _ h.1 ?_ ?_
      · intro x hx hxe
        have hlen := hlast x hx hxe
        have hpos : 0 < mem.messages.length := List.length_pos.mpr h.2.1
        have h1 : mem.messages.length = 1 := by omega
        have hx_mem : x ∈ mem.messages := List.mem_of_getLast?_eq_some hx
        have hrole := h.2.2 h1 x hx_mem
        rw [hxe] at hrole
        cases hrole
      · intro hnil
        exact absurd hnil h.2.1

theorem memInv_applyOps : ∀ (ops : List MOp) (mem : Mem), memInv mem.messages →
    memInv (applyOps mem ops).messages
  | [], _, h => h
  | op :: rest, mem, h => memInv_applyOps rest (applyOp mem op) (memInv_applyOp mem op h)

theorem memInv_first_user (k : Nat) (s : String) :
    memInv (add_user_message (emptyMem k) s).messages := by
  have heq : (add_user_message (emptyMem k) s).messages =
      appendTrim k [] ⟨Role.user, s⟩ := by
    simp [add_user_message, emptyMem]
  rw [heq]
  exact memInv_appendTrim k [] _ rfl (fun x hx => by cases hx) (fun _ => rfl)

/-- C1 (amended; the assistant-side duplicate check requires at least two
stored entries, so a conversation that begins with two identical assistant
appends does duplicate — the invariant holds for every sequence whose
first call is a user append, which is the only way the agent uses the
memory): for every `max_turns`, every user message `s` and every sequence of
further add calls, the stored messages log never carries two identical
entries at its tail. -/
theorem memory_no_tail_dup (k : Nat) (s : String) (ops : List MOp) :
    tailDup ((applyOps (emptyMem k) (MOp.user s :: ops)).messages) = false := by
  have h0 := memInv_first_user k s
  have h := memInv_applyOps ops (add_user_message (emptyMem k) s) h0
  exact tailDup_false_of_noAdjDup _ h.1

/-- C1 counterexample: starting from an empty memory, two identical
assistant appends leave a duplicated tail, because the assistant duplicate
check demands at least two stored entries before suppressing. -/
theorem memory_no_tail_dup_cex :
    tailDup ((applyOps (emptyMem 10) [MOp.assistant "x", MOp.assistant "x"]).messages) = true := by
  decide

/-- C4 counterexample: the tolerated input with bare keys and single-quoted
values does NOT give the same result as the canonical double-quoted form.
The single-quote rewrite only targets quoted keys (a quote directly followed
by a colon), so the single-quoted values survive normalization, the strict
decode fails, and the fallback finds no double-quoted tool pattern in the
original text: the tolerated input yields the error object while the
canonical form yields the action. -/
theorem parser_tolerance_cex :
    parse_json "\x7btool: 'NewsTool', parameters: \x7bcategory: 'technology'\x7d\x7d" =
      errorObj "\x7btool: 'NewsTool', parameters: \x7bcategory: 'technology'\x7d\x7d" ∧
    parse_json "\x7b\"tool\": \"NewsTool\", \"parameters\": \x7b\"category\": \"technology\"\x7d\x7d" =
      Json.obj [("tool", Json.str "NewsTool"),
        ("parameters", Json.obj [("category", Json.str "technology")])] ∧
    parse_json "\x7btool: 'NewsTool', parameters: \x7bcategory: 'technology'\x7d\x7d" ≠
      parse_json "\x7b\"tool\": \"NewsTool\", \"parameters\": \x7b\"category\": \"technology\"\x7d\x7d" := by
  refine ⟨rfl, rfl, ?_⟩
  intro h
  have hb := congrArg (fun j => match j with
    | Json.obj ((k, _) :: _) => k
    | _ => "") h
  revert hb
  decide

/-- C4 (amended; single-quoted values are outside the normalization, which
rewrites only quoted or bare keys): the input with bare-word keys and
double-quoted values yields the same result as the canonical double-quoted
form. -/
theorem parser_tolerance_amended :
    parse_json "\x7btool: \"NewsTool\", parameters: \x7bcategory: \"technology\"\x7d\x7d" =
      parse_json "\x7b\"tool\": \"NewsTool\", \"parameters\": \x7b\"category\": \"technology\"\x7d\x7d" := by
  rfl

/-- C5 counterexample: the input `5` contains no opening brace and no tool
pattern, yet the parser returns the decoded integer `5`, not an error
object — the whole text is the candidate and `json.loads` succeeds on it. -/
theorem parser_degradation_cex :
    parse_json "5" = Json.num 5 ∧ isErrorObjShape (parse_json "5") = false :=
  ⟨rfl, rfl⟩

/-- C6: `parse_json` is total and every path ends in a returned value of one
of the three shapes: the strict decode of the normalized candidate, the
fallback tool/parameters object, or the error object carrying the original
text.  In the embedding, a raised exception would be a missing case; none
exists. -/
theorem parse_json_total (t : String) :
    (∃ v, jsonLoads (normalizedOf t.data) = some v ∧ parse_json t = v) ∨
    (∃ name, toolSearch t.data = some name ∧
      parse_json t = Json.obj [("tool", Json.str (String.mk name)),
        ("parameters", Json.obj (match paramsSearch t.data with
          | some body => kvPairs body
          | none => []))]) ∨
    parse_json t = errorObj t := by
  unfold parse_json fallbackExtract
  cases hdec : jsonLoads (normalizedOf t.data) with
  | some v => exact Or.inl ⟨v, rfl, rfl⟩
  | none =>
    cases htool : toolSearch t.data with
    | some name => exact Or.inr (Or.inl ⟨name, rfl, rfl⟩)
    | none => exact Or.inr (Or.inr rfl)

/-- C7: with no registered tools the router's tool information is empty and
`should_use_tools` answers `(False, None)` for every query without touching
the model: the call counter is returned unchanged. -/
theorem router_no_tools (llm : Nat → String) (calls : Nat) (query : String) :
    should_use_tools [] llm calls query = ((Json.bool false, Json.null), calls) := rfl

/-- C10: when the strict decode of the normalized candidate fails, the
fallback regexes run against the ORIGINAL text, so an input whose original
text lacks a double-quoted tool pattern degrades to the error object even if
normalization had rewritten its keys into valid double-quoted form. -/
theorem fallback_on_original_text (t : String)
    (hdec : jsonLoads (normalizedOf t.data) = none)
    (htool : toolSearch t.data = none) :
    parse_json t = errorObj t := by
  unfold parse_json fallbackExtract
  rw [hdec, htool]

/-- C10 witness: an input whose bare keys are rewritten into double-quoted
form by normalization but whose original text has no quoted tool pattern. -/
theorem fallback_on_original_text_witness :
    jsonLoads (normalizedOf ("\x7btool: 'X', parameters: \x7b\x7d\x7d").data) = none ∧
    toolSearch ("\x7btool: 'X', parameters: \x7b\x7d\x7d").data = none ∧
    parse_json "\x7btool: 'X', parameters: \x7b\x7d\x7d" =
      errorObj "\x7btool: 'X', parameters: \x7b\x7d\x7d" :=
  ⟨rfl, rfl, fallback_on_original_text _ rfl rfl⟩

theorem pwt_tool_not_found (reg : Registry) (llm : Nat → String) (clock : Nat)
    (st : AgentSt) (input : String) (sugg : Json) (X : String) (params : Json)
    (haction : parse_json (llm st.calls) =
      Json.obj [("tool", Json.str X), ("parameters", params)])
    (hx : get_tool reg (Json.str X) = none) :
    process_with_tools reg llm clock st input sugg =
      .ok ("Error: Tool '" ++ X ++ "' not found",
        { st with calls := st.calls + 1,
                  memory := add_assistant_message st.memory
                    ("Error: Tool '" ++ X ++ "' not found") }) := by
  have e1 : ("tool" == "tool") = true := rfl
  have e2 : ("parameters" == "tool") = false := rfl
  have e3 : ("tool" == "parameters") = false := rfl
  have e4 : ("parameters" == "parameters") = true := rfl
  simp only [process_with_tools, haction, hx, pyIn, pySubscript, pyStr,
    List.any_cons, List.find?]
  simp only [bind, Except.bind, pure, Except.pure, e1, e2, e3, e4,
    Bool.true_or, Bool.false_or, if_true]
  rw [hx]

/-- C8: whenever a turn routes into the tool-dispatch path and the parsed
action names a tool `X` that is not registered, `Agent.run` returns the
literal string `Error: Tool 'X' not found`, appends it to memory as the
assistant message, and makes no further model call in that turn: exactly two
model calls happen (the router call and the dispatch call), and no follow-up
call or tool execution occurs. -/
theorem agent_tool_not_found (reg : Registry) (llm : Nat → String) (clock : Nat)
    (st : AgentSt) (input : String) (ut tn : Json) (X : String) (params : Json)
    (hroute : should_use_tools reg llm st.calls input = ((ut, tn), st.calls + 1))
    (hut : pyTruthy ut = true)
    (haction : parse_json (llm (st.calls + 1)) =
      Json.obj [("tool", Json.str X), ("parameters", params)])
    (hx : get_tool reg (Json.str X) = none) :
    Agent.run reg llm clock st input =
      .ok ("Error: Tool '" ++ X ++ "' not found",
        ⟨add_assistant_message (add_user_message st.memory input)
            ("Error: Tool '" ++ X ++ "' not found"),
          st.calls + 2, st.execs⟩) := by
  simp only [Agent.run]
  simp only [hroute, hut]
  cases htn : pyTruthy tn with
  | true =>
    simp only [Bool.and_self, if_true]
    exact pwt_tool_not_found reg llm clock
      ⟨add_user_message st.memory input, st.calls + 1, st.execs⟩ input tn X params haction hx
  | false =>
    simp only [Bool.true_and, Bool.false_eq_true, if_false, if_true]
    exact pwt_tool_not_found reg llm clock
      ⟨add_user_message st.memory input, st.calls + 1, st.execs⟩ input Json.null X params haction hx

/-- C8 witness: a one-tool registry, a router reply selecting a tool, and a
dispatch reply naming the unregistered tool `X`. -/
theorem agent_tool_not_found_witness :
    (should_use_tools [("T", ⟨fun _ => "ok"⟩)]
        (fun n => if n == 0 then "\x7b\"use_tool\": true, \"tool_name\": \"T\"\x7d"
          else "\x7b\"tool\": \"X\", \"parameters\": \x7b\x7d\x7d") 0 "hi" =
        ((Json.bool true, Json.str "T"), 0 + 1) ∧
      pyTruthy (Json.bool true) = true ∧
      parse_json ((fun n : Nat => if n == 0 then "\x7b\"use_tool\": true, \"tool_name\": \"T\"\x7d"
          else "\x7b\"tool\": \"X\", \"parameters\": \x7b\x7d\x7d") (0 + 1)) =
        Json.obj [("tool", Json.str "X"), ("parameters", Json.obj [])] ∧
      get_tool [("T", ⟨fun _ => "ok"⟩)] (Json.str "X") = none) ∧
    Agent.run [("T", ⟨fun _ => "ok"⟩)]
        (fun n => if n == 0 then "\x7b\"use_tool\": true, \"tool_name\": \"T\"\x7d"
          else "\x7b\"tool\": \"X\", \"parameters\": \x7b\x7d\x7d") 7
        ⟨emptyMem 10, 0, 0⟩ "hi" =
      .ok ("Error: Tool 'X' not found",
        ⟨add_assistant_message (add_user_message (emptyMem 10) "hi")
            "Error: Tool 'X' not found",
          0 + 2, 0⟩) :=
  ⟨⟨rfl, rfl, rfl, rfl⟩,
    agent_tool_not_found [("T", ⟨fun _ => "ok"⟩)]
      (fun n => if n == 0 then "\x7b\"use_tool\": true, \"tool_name\": \"T\"\x7d"
        else "\x7b\"tool\": \"X\", \"parameters\": \x7b\x7d\x7d") 7
      ⟨emptyMem 10, 0, 0⟩ "hi" (Json.bool true) (Json.str "T") "X" (Json.obj [])
      rfl rfl rfl rfl⟩

/-- C9 (amended; the direct second execution of the suggested tool only
happens for a suggested `TimestampTool` or a suggested tool whose name
contains `NewsTool` — for any other suggested tool name no second execution
occurs): in the tool-dispatch path, when the parsed action names the
registered tool `X` whose execution returns the empty string, the empty
result is still recorded through `add_tool_result`; then, the turn holding
no (truthy) tool result, a suggested tool named neither `TimestampTool` nor
containing `NewsTool` is NOT executed a second time and the raw model reply
is returned with no follow-up model call, while a suggested registered
`TimestampTool` IS executed a second time with no arguments, and if that
also returns the empty string the raw model reply is likewise returned with
no follow-up model call. -/
theorem empty_tool_result_fallback (reg : Registry) (llm : Nat → String) (clock : Nat)
    (st : AgentSt) (input : String) (S X : String) (tool : Tool)
    (P : List (String × Json))
    (hact : parse_json (llm st.calls) =
      Json.obj [("tool", Json.str X), ("parameters", Json.obj P)])
    (hreg : get_tool reg (Json.str X) = some (X, tool))
    (hempty : tool.execute (Json.obj P) = "")
    (hS : ¬ S = "") :
    (S ≠ "TimestampTool" → pyInStr "NewsTool" S = false →
      process_with_tools reg llm clock st input (Json.str S) =
        .ok (llm st.calls,
          ⟨add_assistant_message (add_tool_result st.memory X "" clock) (llm st.calls),
            st.calls + 1, st.execs + 1⟩)) ∧
    (∀ t2 : Tool, S = "TimestampTool" → get_tool reg (Json.str S) = some (S, t2) →
      t2.execute (Json.obj []) = "" →
      process_with_tools reg llm clock st input (Json.str S) =
        .ok (llm st.calls,
          ⟨add_assistant_message (add_tool_result st.memory X "" clock) (llm st.calls),
            st.calls + 1, st.execs + 2⟩)) := by
  have hred : process_with_tools reg llm clock st input (Json.str S) =
      .ok (finishTools reg llm
        ⟨add_tool_result st.memory X "" clock, st.calls + 1, st.execs + 1⟩
        input (Json.str S) (some "") (llm st.calls)) := by
    have e1 : ("tool" == "tool") = true := rfl
    have e2 : ("parameters" == "tool") = false := rfl
    have e3 : ("tool" == "parameters") = false := rfl
    have e4 : ("parameters" == "parameters") = true := rfl
    simp only [process_with_tools, hact, pyIn, pySubscript, List.any_cons, List.find?]
    simp only [bind, Except.bind, pure, Except.pure, e1, e2, e3, e4,
      Bool.true_or, Bool.false_or, if_true]
    rw [hreg]
    show Except.ok (finishTools reg llm
        ⟨add_tool_result st.memory X (tool.execute (Json.obj P)) clock,
          st.calls + 1, st.execs + 1⟩
        input (Json.str S) (some (tool.execute (Json.obj P))) (llm st.calls)) = _
    rw [hempty]
  have hEmptyRes : truthyRes (some "") = false := rfl
  have hScond : pyTruthy (Json.str S) = true := by
    simp [pyTruthy, hS]
  constructor
  · intro hTs hNews
    rw [hred]
    unfold finishTools
    rw [hEmptyRes, hScond]
    cases hgt : get_tool reg (Json.str S) with
    | none => rfl
    | some pr =>
      obtain ⟨n2, t2⟩ := pr
      have hTsB : (S == "TimestampTool") = false := beq_eq_false_iff_ne.mpr hTs
      simp only [Bool.not_false, Bool.and_self, if_true, hTsB, hNews, if_false,
        hEmptyRes, Bool.false_eq_true]
  · intro t2 hTsEq hgt ht2
    subst hTsEq
    rw [hred]
    unfold finishTools
    have e5 : ("TimestampTool" == "TimestampTool") = true := rfl
    simp only [hEmptyRes, hScond, Bool.not_false, Bool.and_self, if_true, hgt, ht2, e5,
      Bool.false_eq_true, if_false]

/-- C9 counterexample: with the suggested tool `EmailTool` (registered,
parsed, executed with an empty-string result), the dispatch ends with ONE
tool execution, not the two executions the claimed unconditional second
direct execution would produce: the direct-execution fallback only fires for
`TimestampTool` or a name containing `NewsTool`. -/
theorem empty_tool_result_fallback_cex :
    process_with_tools [("EmailTool", ⟨fun _ => ""⟩)]
        (fun _ => "\x7b\"tool\": \"EmailTool\", \"parameters\": \x7b\x7d\x7d") 3
        ⟨emptyMem 10, 0, 0⟩ "hi" (Json.str "EmailTool") =
      .ok ("\x7b\"tool\": \"EmailTool\", \"parameters\": \x7b\x7d\x7d",
        ⟨add_assistant_message (add_tool_result (emptyMem 10) "EmailTool" "" 3)
            "\x7b\"tool\": \"EmailTool\", \"parameters\": \x7b\x7d\x7d",
          1, 1⟩) ∧
    (1 : Nat) ≠ 0 + 2 :=
  ⟨rfl, by decide⟩

/-- C9 witness: the suggested registered tool `EmailTool` whose execution
returns the empty string; the amended theorem applies and its non-special
branch fires at this input. -/
theorem empty_tool_result_fallback_witness :
    (parse_json ((fun _ : Nat => "\x7b\"tool\": \"EmailTool\", \"parameters\": \x7b\x7d\x7d")
        (0 : Nat)) = Json.obj [("tool", Json.str "EmailTool"), ("parameters", Json.obj [])] ∧
      get_tool [("EmailTool", ⟨fun _ => ""⟩)] (Json.str "EmailTool") =
        some ("EmailTool", ⟨fun _ => ""⟩) ∧
      (⟨fun _ => ""⟩ : Tool).execute (Json.obj []) = "" ∧
      ¬ "EmailTool" = "") ∧
    (("EmailTool" : String) ≠ "TimestampTool" → pyInStr "NewsTool" "EmailTool" = false →
      process_with_tools [("EmailTool", ⟨fun _ => ""⟩)]
          (fun _ => "\x7b\"tool\": \"EmailTool\", \"parameters\": \x7b\x7d\x7d") 3
          ⟨emptyMem 10, 0, 0⟩ "hi" (Json.str "EmailTool") =
        .ok ((fun _ : Nat => "\x7b\"tool\": \"EmailTool\", \"parameters\": \x7b\x7d\x7d") (0 : Nat),
          ⟨add_assistant_message (add_tool_result (emptyMem 10) "EmailTool" "" 3)
              ((fun _ : Nat => "\x7b\"tool\": \"EmailTool\", \"parameters\": \x7b\x7d\x7d") (0 : Nat)),
            0 + 1, 0 + 1⟩)) ∧
    (∀ t2 : Tool, ("EmailTool" : String) = "TimestampTool" →
      get_tool [("EmailTool", ⟨fun _ => ""⟩)] (Json.str "EmailTool") = some ("EmailTool", t2) →
      t2.execute (Json.obj []) = "" →
      process_with_tools [("EmailTool", ⟨fun _ => ""⟩)]
          (fun _ => "\x7b\"tool\": \"EmailTool\", \"parameters\": \x7b\x7d\x7d") 3
          ⟨emptyMem 10, 0, 0⟩ "hi" (Json.str "EmailTool") =
        .ok ((fun _ : Nat => "\x7b\"tool\": \"EmailTool\", \"parameters\": \x7b\x7d\x7d") (0 : Nat),
          ⟨add_assistant_message (add_tool_result (emptyMem 10) "EmailTool" "" 3)
              ((fun _ : Nat => "\x7b\"tool\": \"EmailTool\", \"parameters\": \x7b\x7d\x7d") (0 : Nat)),
            0 + 1, 0 + 2⟩)) :=
  ⟨⟨rfl, rfl, rfl, by decide⟩,
    (empty_tool_result_fallback [("EmailTool", ⟨fun _ => ""⟩)]
      (fun _ => "\x7b\"tool\": \"EmailTool\", \"parameters\": \x7b\x7d\x7d") 3
      ⟨emptyMem 10, 0, 0⟩ "hi" "EmailTool" "EmailTool" ⟨fun _ => ""⟩ []
      rfl rfl rfl (by decide)).1,
    (empty_tool_result_fallback [("EmailTool", ⟨fun _ => ""⟩)]
      (fun _ => "\x7b\"tool\": \"EmailTool\", \"parameters\": \x7b\x7d\x7d") 3
      ⟨emptyMem 10, 0, 0⟩ "hi" "EmailTool" "EmailTool" ⟨fun _ => ""⟩ []
      rfl rfl rfl (by decide)).2⟩

theorem alpha_ne_char {c t : Char} (h : c.isAlpha = true) (ht : t.isAlpha = false) :
    ¬ c = t := fun he => by
  subst he
  rw [h] at ht
  cases ht

theorem alpha_not_ws {c : Char} (h : c.isAlpha = true) : isWs c = false := by
  cases hw : isWs c
  · rfl
  · exfalso
    unfold isWs at hw
    simp only [Bool.or_eq_true, decide_eq_true_eq] at hw
    rcases hw with ((((h1 | h1) | h1) | h1) | h1) | h1 <;>
      (subst h1; exact absurd h (by decide))

theorem alpha_not_digit {c : Char} (h : c.isAlpha = true) : c.isDigit = false := by
  simp [Char.isAlpha, Char.isUpper, Char.isLower, Char.isDigit,
    UInt32.le_def, BitVec.le_def] at *
  omega

theorem skipWs_eq_self {l : List Char} (h : ∀ c ∈ l, isWs c = false) :
    skipWs l = l := by
  cases l with
  | nil => rfl
  | cons c rest => simp [skipWs, List.dropWhile_cons, h c (by simp)]

theorem startsWithFence_eq_false {c : Char} {rest : List Char} (h : ¬ c = bq) :
    startsWithFence (c :: rest) = false := by
  unfold startsWithFence
  cases rest with
  | nil => rfl
  | cons b r =>
    cases r with
    | nil => rfl
    | cons d r2 => simp [h]

theorem fencedSearch_none {l : List Char} (h : ∀ c ∈ l, ¬ c = bq) :
    fencedSearch l = none := by
  induction l with
  | nil => rfl
  | cons c rest ih =>
    unfold fencedSearch
    simp only [startsWithFence_eq_false (h c (by simp)), Bool.false_eq_true, if_false]
    exact ih (fun x hx => h x (by simp [hx]))

theorem braceSearch_none {l : List Char} (h : ∀ c ∈ l, ¬ c = lb) :
    braceSearch l = none := by
  induction l with
  | nil => rfl
  | cons c rest ih =>
    unfold braceSearch
    rw [if_neg (h c (by simp))]
    exact ih (fun x hx => h x (by simp [hx]))

theorem rstripWs_eq_self {l : List Char} (h : ∀ c ∈ l, isWs c = false) :
    rstripWs l = l := by
  have hr : skipWs l.reverse = l.reverse :=
    skipWs_eq_self (fun c hc => h c (List.mem_reverse.mp hc))
  unfold skipWs at hr
  unfold rstripWs
  rw [hr, List.reverse_reverse]

theorem stripWs_eq_self {l : List Char} (h : ∀ c ∈ l, isWs c = false) :
    stripWs l = l := by
  unfold stripWs
  have h1 : l.dropWhile isWs = l := skipWs_eq_self h
  rw [h1]
  exact rstripWs_eq_self h

theorem fixQuotedKeysF_eq_self : ∀ (f : Nat) (l : List Char), (∀ c ∈ l, ¬ c = sq) →
    fixQuotedKeysF f l = l
  | 0, _, _ => rfl
  | _ + 1, [], _ => rfl
  | f + 1, x :: xs, h => by
    unfold fixQuotedKeysF
    rw [if_neg (h x (by simp))]
    rw [fixQuotedKeysF_eq_self f xs (fun c hc => h c (by simp [hc]))]

theorem matchKeyAt_none {l : List Char} (h : ∀ c ∈ l, ¬ c = ':') :
    matchKeyAt l = none := by
  unfold matchKeyAt
  by_cases hw : ((l.dropWhile isWs).takeWhile isWord).isEmpty
  · simp only [hw, if_true]
  · simp only [hw, Bool.false_eq_true, if_false]
    have hsub : List.Sublist (((l.dropWhile isWs).dropWhile isWord).dropWhile isWs) l :=
      ((List.dropWhile_sublist _).trans (List.dropWhile_sublist _)).trans
        (List.dropWhile_sublist _)
    cases hr3 : (((l.dropWhile isWs).dropWhile isWord).dropWhile isWs) with
    | nil => rfl
    | cons c3 r =>
      have hc3 : c3 ∈ l := hsub.subset (by rw [hr3]; simp)
      show (if c3 = ':' then _ else _) = _
      rw [if_neg (h c3 hc3)]

theorem quoteBareKeysF_eq_self : ∀ (f : Nat) (l : List Char), (∀ c ∈ l, ¬ c = ':') →
    quoteBareKeysF f l = l
  | 0, _, _ => rfl
  | _ + 1, [], _ => rfl
  | f + 1, x :: xs, h => by
    unfold quoteBareKeysF
    rw [matchKeyAt_none h]
    rw [quoteBareKeysF_eq_self f xs (fun c hc => h c (by simp [hc]))]

theorem matchToolAt_none {l : List Char} (h : ∀ c ∈ l, ¬ c = dq) :
    matchToolAt l = none := by
  unfold matchToolAt
  have hne : ¬ l.take 6 = ("\"tool\"").data := by
    cases l with
    | nil => intro he; cases he
    | cons c rest =>
      intro he
      have hd : ("\"tool\"").data = dq :: 't' :: 'o' :: 'o' :: 'l' :: [dq] := rfl
      rw [hd, List.take_succ_cons, List.cons.injEq] at he
      exact h c (by simp) he.1
  rw [if_neg hne]

theorem toolSearch_none {l : List Char} (h : ∀ c ∈ l, ¬ c = dq) :
    toolSearch l = none := by
  induction l with
  | nil => rfl
  | cons c rest ih =>
    unfold toolSearch
    rw [matchToolAt_none h]
    exact ih (fun x hx => h x (by simp [hx]))

theorem parseVal_alpha (g : Nat) (c : Char) (rest : List Char)
    (h : ∀ x ∈ c :: rest, x.isAlpha = true) :
    parseVal (g + 1) (c :: rest) =
      (if (c :: rest).take 4 = ("null").data then
        some (Json.null, (c :: rest).drop 4)
      else if (c :: rest).take 4 = ("true").data then
        some (Json.bool true, (c :: rest).drop 4)
      else if (c :: rest).take 5 = ("false").data then
        some (Json.bool false, (c :: rest).drop 5)
      else if (c :: rest).take 3 = ("NaN").data then
        some (Json.nan, (c :: rest).drop 3)
      else if (c :: rest).take 8 = ("Infinity").data then
        some (Json.inf, (c :: rest).drop 8)
      else none) := by
  have hc := h c (by simp)
  have hws : ∀ x ∈ c :: rest, isWs x = false := fun x hx => alpha_not_ws (h x hx)
  unfold parseVal
  rw [skipWs_eq_self hws]
  show (if c = lb then _ else _) = _
  rw [if_neg (alpha_ne_char hc (by decide))]
  rw [if_neg (alpha_ne_char hc (by decide))]
  rw [if_neg (alpha_ne_char hc (by decide))]
  have hni : ¬ (c :: rest).take 9 = ("-Infinity").data := by
    intro he
    have hd : ("-Infinity").data = '-' :: ("Infinity").data := rfl
    rw [hd, List.take_succ_cons, List.cons.injEq] at he
    exact alpha_ne_char hc (by decide) he.1
  rw [if_neg hni]
  have hnum : (decide (c = '-') || c.isDigit) = false := by
    rw [decide_eq_false (alpha_ne_char hc (by decide)), alpha_not_digit hc]
    rfl
  simp only [hnum, Bool.false_eq_true, if_false]

theorem drop_all_alpha {l : List Char} (n : Nat) (h : ∀ c ∈ l, c.isAlpha = true) :
    ∀ c ∈ l.drop n, c.isAlpha = true :=
  fun c hc => h c (List.drop_subset n l hc)

theorem jsonLoads_literal_tail (l s : List Char) (n : Nat)
    (htake : l.take n = s) (hne : ¬ l = s)
    (h : ∀ c ∈ l, c.isAlpha = true) :
    ((skipWs (l.drop n)).isEmpty) = false := by
  have hd : l.drop n ≠ [] := by
    intro hdd
    exact hne (by rw [← List.take_append_drop n l, htake, hdd, List.append_nil])
  rw [skipWs_eq_self (fun x hx => alpha_not_ws (drop_all_alpha n h x hx))]
  cases hdd : l.drop n with
  | nil => exact absurd hdd hd
  | cons _ _ => rfl

theorem jsonLoads_alpha_none (l : List Char) (h : ∀ c ∈ l, c.isAlpha = true)
    (h1 : ¬ l = ("null").data) (h2 : ¬ l = ("true").data)
    (h3 : ¬ l = ("false").data) (h4 : ¬ l = ("NaN").data)
    (h5 : ¬ l = ("Infinity").data) :
    jsonLoads l = none := by
  unfold jsonLoads
  cases l with
  | nil => rfl
  | cons c rest =>
    rw [show 2 * (c :: rest).length + 2 = (2 * (c :: rest).length + 1) + 1 from rfl,
      parseVal_alpha (2 * (c :: rest).length + 1) c rest h]
    by_cases t1 : (c :: rest).take 4 = ("null").data
    · rw [if_pos t1]
      simp only [jsonLoads_literal_tail _ _ 4 t1 h1 h, Bool.false_eq_true, if_false]
    rw [if_neg t1]
    by_cases t2 : (c :: rest).take 4 = ("true").data
    · rw [if_pos t2]
      simp only [jsonLoads_literal_tail _ _ 4 t2 h2 h, Bool.false_eq_true, if_false]
    rw [if_neg t2]
    by_cases t3 : (c :: rest).take 5 = ("false").data
    · rw [if_pos t3]
      simp only [jsonLoads_literal_tail _ _ 5 t3 h3 h, Bool.false_eq_true, if_false]
    rw [if_neg t3]
    by_cases t4 : (c :: rest).take 3 = ("NaN").data
    · rw [if_pos t4]
      simp only [jsonLoads_literal_tail _ _ 3 t4 h4 h, Bool.false_eq_true, if_false]
    rw [if_neg t4]
    by_cases t5 : (c :: rest).take 8 = ("Infinity").data
    · rw [if_pos t5]
      simp only [jsonLoads_literal_tail _ _ 8 t5 h5 h, Bool.false_eq_true, if_false]
    rw [if_neg t5]

/-- C5 (amended; the whole text is the candidate when no fence and no brace
exist, and `json.loads` accepts the bare literals `null`, `true`, `false`,
`NaN` and `Infinity`, so an all-letter input equal to one of those decodes
to a value instead of degrading): for every input made of letters only that
is none of the five decodable literals — such input contains no opening
brace and no tool pattern — the parser returns the error object carrying
the original input verbatim. -/
theorem parser_degradation (t : String) (h : ∀ c ∈ t.data, c.isAlpha = true)
    (h1 : t ≠ "null") (h2 : t ≠ "true") (h3 : t ≠ "false") (h4 : t ≠ "NaN")
    (h5 : t ≠ "Infinity") :
    parse_json t = errorObj t := by
  have hws : ∀ c ∈ t.data, isWs c = false := fun c hc => alpha_not_ws (h c hc)
  have hcand : candidateOf t.data = t.data := by
    unfold candidateOf
    rw [fencedSearch_none (fun c hc => alpha_ne_char (h c hc) (by decide)),
      braceSearch_none (fun c hc => alpha_ne_char (h c hc) (by decide))]
  have hnorm : normalizedOf t.data = t.data := by
    unfold normalizedOf
    rw [hcand, stripWs_eq_self hws]
    unfold fixQuotedKeys
    rw [fixQuotedKeysF_eq_self _ _ (fun c hc => alpha_ne_char (h c hc) (by decide))]
    unfold quoteBareKeys
    rw [quoteBareKeysF_eq_self _ _ (fun c hc => alpha_ne_char (h c hc) (by decide))]
  have hdec : jsonLoads (normalizedOf t.data) = none := by
    rw [hnorm]
    refine jsonLoads_alpha_none t.data h ?_ ?_ ?_ ?_ ?_ <;>
      (intro he; first
        | exact h1 (congrArg String.mk he)
        | exact h2 (congrArg String.mk he)
        | exact h3 (congrArg String.mk he)
        | exact h4 (congrArg String.mk he)
        | exact h5 (congrArg String.mk he))
  have htool : toolSearch t.data = none :=
    toolSearch_none (fun c hc => alpha_ne_char (h c hc) (by decide))
  unfold parse_json fallbackExtract
  rw [hdec, htool]

/-- C5 witness: the all-letter input `hello` degrades to the error object
carrying it verbatim. -/
theorem parser_degradation_witness :
    ((∀ c ∈ ("hello" : String).data, c.isAlpha = true) ∧
      ("hello" : String) ≠ "null" ∧ ("hello" : String) ≠ "true" ∧
      ("hello" : String) ≠ "false" ∧ ("hello" : String) ≠ "NaN" ∧
      ("hello" : String) ≠ "Infinity") ∧
    parse_json "hello" = errorObj "hello" :=
  ⟨⟨by decide, by decide, by decide, by decide, by decide, by decide⟩,
    parser_degradation "hello" (by decide) (by decide) (by decide) (by decide)
      (by decide) (by decide)⟩

theorem mk_data_eq (s : String) : String.mk s.data = s := rfl

theorem alphanum_ne_char {c t : Char} (h : c.isAlphanum = true)
    (ht : t.isAlphanum = false) : ¬ c = t := fun he => by
  subst he
  rw [h] at ht
  cases ht

theorem alphanum_not_ws {c : Char} (h : c.isAlphanum = true) : isWs c = false := by
  cases hw : isWs c
  · rfl
  · exfalso
    unfold isWs at hw
    simp only [Bool.or_eq_true, decide_eq_true_eq] at hw
    rcases hw with ((((h1 | h1) | h1) | h1) | h1) | h1 <;>
      (subst h1; exact absurd h (by decide))

theorem okChar_of_alphanum {c : Char} (h : c.isAlphanum = true) : okChar c = true := by
  unfold okChar
  rw [h]
  rfl

theorem okChar_ne {c t : Char} (h : okChar c = true) (ht : okChar t = false) :
    ¬ c = t := fun he => by
  subst he
  rw [h] at ht
  cases ht

theorem skipWs_cons_not_ws {c : Char} (h : isWs c = false) (l : List Char) :
    skipWs (c :: l) = c :: l := by
  simp [skipWs, List.dropWhile_cons, h]

theorem skipWs_cons_ws {c : Char} (h : isWs c = true) (l : List Char) :
    skipWs (c :: l) = skipWs l := by
  simp [skipWs, List.dropWhile_cons, h]

theorem parseStringBody_alphanum : ∀ (s rest : List Char),
    (∀ c ∈ s, c.isAlphanum = true) →
    parseStringBody (s ++ dq :: rest) = some (s, rest)
  | [], rest, _ => by
    show parseStringBody (dq :: rest) = _
    unfold parseStringBody
    rw [if_pos rfl]
  | c :: cs, rest, h => by
    have hc := h c (by simp)
    show parseStringBody (c :: (cs ++ dq :: rest)) = _
    unfold parseStringBody
    rw [if_neg (alphanum_ne_char hc (by decide)),
      if_neg (alphanum_ne_char hc (by decide))]
    rw [parseStringBody_alphanum cs rest (fun x hx => h x (by simp [hx]))]

theorem assocSet_fresh (fields : List (String × Json)) (k : String) (v : Json)
    (h : ∀ p ∈ fields, ¬ p.1 = k) : assocSet fields k v = fields ++ [(k, v)] := by
  unfold assocSet
  have hany : (fields.any fun p => p.1 == k) = false := by
    rw [List.any_eq_false]
    intro p hp
    simpa using h p hp
  rw [hany]
  simp

theorem splitAtFence_boundary : ∀ (pre rest : List Char), (∀ c ∈ pre, ¬ c = bq) →
    splitAtFence (pre ++ bq :: bq :: bq :: rest) = some (pre, rest)
  | [], rest, _ => by
    show splitAtFence (bq :: bq :: bq :: rest) = _
    unfold splitAtFence
    rw [if_pos (show startsWithFence (bq :: bq :: bq :: rest) = true from rfl)]
    rfl
  | c :: cs, rest, h => by
    show splitAtFence (c :: (cs ++ bq :: bq :: bq :: rest)) = _
    unfold splitAtFence
    simp only [startsWithFence_eq_false (h c (by simp)), Bool.false_eq_true, if_false]
    rw [splitAtFence_boundary cs rest (fun x hx => h x (by simp [hx]))]

theorem fencedSearch_boundary : ∀ (pre tail payload : List Char),
    (∀ c ∈ pre, ¬ c = bq) → tryFenceAt tail = some payload →
    fencedSearch (pre ++ bq :: bq :: bq :: tail) = some payload
  | [], tail, payload, _, hafter => by
    show fencedSearch (bq :: bq :: bq :: tail) = _
    unfold fencedSearch
    rw [if_pos (show startsWithFence (bq :: bq :: bq :: tail) = true from rfl)]
    simp only [List.drop_succ_cons, List.drop_zero]
    rw [hafter]
  | c :: cs, tail, payload, h, hafter => by
    show fencedSearch (c :: (cs ++ bq :: bq :: bq :: tail)) = _
    unfold fencedSearch
    simp only [startsWithFence_eq_false (h c (by simp)), Bool.false_eq_true, if_false]
    exact fencedSearch_boundary cs tail payload (fun x hx => h x (by simp [hx])) hafter

theorem rstripWs_concat_ws (l : List Char) (c : Char) (hc : isWs c = true) :
    rstripWs (l ++ [c]) = rstripWs l := by
  unfold rstripWs
  rw [List.reverse_append]
  simp [List.dropWhile_cons, hc]

theorem rstripWs_eq_self_last_rb (x : List Char) :
    rstripWs (x ++ [rb]) = x ++ [rb] := by
  have hrb : isWs rb = false := rfl
  unfold rstripWs
  rw [List.reverse_append]
  simp [List.dropWhile_cons, hrb]

theorem dropWhile_newline_payload (t : List Char) (rest : List Char) :
    List.dropWhile isWs ('\n' :: lb :: (t ++ rest)) = lb :: (t ++ rest) := by
  rw [List.dropWhile_cons]
  simp only [show isWs '\n' = true from rfl, if_true]
  rw [List.dropWhile_cons]
  simp [show isWs lb = false from rfl]

theorem tryFenceAt_payload (tag : Bool) (t ps post : List Char)
    (hnbq : ∀ c ∈ lb :: t, ¬ c = bq)
    (hlast : lb :: t = ps ++ [rb]) :
    tryFenceAt ((if tag then ("json").data else []) ++
      '\n' :: (lb :: t) ++ '\n' :: bq :: bq :: bq :: post) = some (lb :: t) := by
  have hsplit : splitAtFence (((lb :: t) ++ ['\n']) ++ bq :: bq :: bq :: post) =
      some ((lb :: t) ++ ['\n'], post) := by
    refine splitAtFence_boundary _ _ ?_
    intro c hc
    rcases List.mem_append.mp hc with hcl | hcr
    · exact hnbq c hcl
    · simp at hcr
      subst hcr
      decide
  have hstrip : rstripWs ((lb :: t) ++ ['\n']) = lb :: t := by
    rw [rstripWs_concat_ws _ '\n' (show isWs '\n' = true from rfl), hlast,
      rstripWs_eq_self_last_rb, ← hlast]
  have hassoc : (lb :: t) ++ '\n' :: bq :: bq :: bq :: post =
      ((lb :: t) ++ ['\n']) ++ bq :: bq :: bq :: post := by simp
  cases tag
  · show tryFenceAt (([] : List Char) ++
      '\n' :: (lb :: t) ++ '\n' :: bq :: bq :: bq :: post) = some (lb :: t)
    unfold tryFenceAt
    have htag : ¬ (([] : List Char) ++ '\n' :: (lb :: t) ++
        '\n' :: bq :: bq :: bq :: post).take 4 = ("json").data := by
      intro he
      have h4 : ("json").data = 'j' :: 's' :: 'o' :: 'n' :: [] := rfl
      rw [h4] at he
      have : '\n' = 'j' := (List.cons.injEq _ _ _ _ ▸ he).1
      cases this
    rw [if_neg htag]
    show (match splitAtFence (List.dropWhile isWs
      ('\n' :: lb :: (t ++ '\n' :: bq :: bq :: bq :: post))) with
      | some (before, _) => some (rstripWs before)
      | none => none) = some (lb :: t)
    rw [dropWhile_newline_payload]
    rw [show lb :: (t ++ '\n' :: bq :: bq :: bq :: post) =
      ((lb :: t) ++ ['\n']) ++ bq :: bq :: bq :: post by simp]
    rw [hsplit]
    show some (rstripWs ((lb :: t) ++ ['\n'])) = some (lb :: t)
    rw [hstrip]
  · show tryFenceAt (("json").data ++
      '\n' :: (lb :: t) ++ '\n' :: bq :: bq :: bq :: post) = some (lb :: t)
    unfold tryFenceAt
    have htag : (("json").data ++ '\n' :: (lb :: t) ++
        '\n' :: bq :: bq :: bq :: post).take 4 = ("json").data := rfl
    rw [if_pos htag]
    show (match splitAtFence (List.dropWhile isWs ((("json").data ++
        '\n' :: (lb :: t) ++ '\n' :: bq :: bq :: bq :: post).drop 4)) with
      | some (before, _) => some (rstripWs before)
      | none => none) = some (lb :: t)
    have hdrop : (("json").data ++ '\n' :: (lb :: t) ++
        '\n' :: bq :: bq :: bq :: post).drop 4 =
        '\n' :: lb :: (t ++ '\n' :: bq :: bq :: bq :: post) := rfl
    rw [hdrop, dropWhile_newline_payload]
    rw [show lb :: (t ++ '\n' :: bq :: bq :: bq :: post) =
      ((lb :: t) ++ ['\n']) ++ bq :: bq :: bq :: post by simp]
    rw [hsplit]
    show some (rstripWs ((lb :: t) ++ ['\n'])) = some (lb :: t)
    rw [hstrip]

theorem chain_of_gchainB : ∀ l : List Char, gchainB l = true → List.Chain' gpair l
  | [], _ => List.chain'_nil
  | [c], _ => List.chain'_singleton c
  | a :: b :: l, h => by
    have h' : (decide (gpair a b) && gchainB (b :: l)) = true := h
    exact List.chain'_cons.mpr
      ⟨of_decide_eq_true (andE h').1, chain_of_gchainB (b :: l) (andE h').2⟩

theorem chain_gpair_no_colon (l : List Char) (h : ∀ c ∈ l, ¬ c = ':') :
    List.Chain' gpair l := by
  induction l with
  | nil => exact List.chain'_nil
  | cons c rest ih =>
    rw [List.chain'_cons']
    refine ⟨?_, ih (fun x hx => h x (by simp [hx]))⟩
    intro y hy hyc
    have hmem : y ∈ rest := List.mem_of_mem_head? hy
    exact absurd hyc (h y (by simp [hmem]))

theorem chain_gpair_append {x y : List Char} (hx : List.Chain' gpair x)
    (hy : List.Chain' gpair y) (hhead : ∀ c ∈ y.head?, ¬ c = ':') :
    List.Chain' gpair (x ++ y) :=
  List.chain'_append.mpr ⟨hx, hy, fun _ _ b hb hbc => absurd hbc (hhead b hb)⟩

theorem head_not_colon_append {a b : List Char} (ha : ∀ c ∈ a, ¬ c = ':')
    (hb : ∀ c ∈ b.head?, ¬ c = ':') : ∀ c ∈ (a ++ b).head?, ¬ c = ':' := by
  cases a with
  | nil => simpa using hb
  | cons x xs =>
    intro c hc
    simp at hc
    subst hc
    exact ha x (by simp)

theorem head_not_colon_alphanum {a : List Char} (ha : ∀ c ∈ a, c.isAlphanum = true) :
    ∀ c ∈ a.head?, ¬ c = ':' := by
  intro c hc
  have : c ∈ a := List.mem_of_mem_head? hc
  exact alphanum_ne_char (ha c this) (by decide)

theorem serializeFields_head_ne_colon : ∀ (ps : List (String × String)),
    ∀ c ∈ (serializeFields ps).head?, ¬ c = ':'
  | [] => by simp [serializeFields]
  | [(k, v)] => by
    intro c hc
    have : (serializeFields [(k, v)]).head? = some dq := rfl
    rw [this] at hc
    simp at hc
    subst hc
    decide
  | (k, v) :: p2 :: ps' => by
    intro c hc
    have : (serializeFields ((k, v) :: p2 :: ps')).head? = some dq := rfl
    rw [this] at hc
    simp at hc
    subst hc
    decide

theorem serializeFields_chain : ∀ (ps : List (String × String)),
    (∀ kv ∈ ps, (∀ c ∈ (kv.1 : String).data, c.isAlphanum = true) ∧
      (∀ c ∈ (kv.2 : String).data, c.isAlphanum = true)) →
    List.Chain' gpair (serializeFields ps)
  | [], _ => List.chain'_nil
  | [(k, v)], h => by
    have hk := (h (k, v) (by simp)).1
    have hv := (h (k, v) (by simp)).2
    show List.Chain' gpair ([dq] ++ k.data ++ ("\": \"").data ++ v.data ++ [dq])
    refine chain_gpair_append (chain_gpair_append (chain_gpair_append
      (chain_gpair_append ?_ ?_ ?_) ?_ ?_) ?_ ?_) ?_ ?_
    · exact List.chain'_singleton dq
    · exact chain_gpair_no_colon _ (fun c hc => alphanum_ne_char (hk c hc) (by decide))
    · exact head_not_colon_alphanum hk
    · exact chain_of_gchainB _ (by decide)
    · intro c hc
      simp at hc
      subst hc
      decide
    · exact chain_gpair_no_colon _ (fun c hc => alphanum_ne_char (hv c hc) (by decide))
    · exact head_not_colon_alphanum hv
    · exact List.chain'_singleton dq
    · intro c hc
      simp at hc
      subst hc
      decide
  | (k, v) :: p2 :: ps', h => by
    have hk := (h (k, v) (by simp)).1
    have hv := (h (k, v) (by simp)).2
    have ih := serializeFields_chain (p2 :: ps') (fun kv hkv => h kv (by simp [hkv]))
    show List.Chain' gpair ([dq] ++ k.data ++ ("\": \"").data ++ v.data ++
      ("\", ").data ++ serializeFields (p2 :: ps'))
    refine chain_gpair_append (chain_gpair_append (chain_gpair_append
      (chain_gpair_append (chain_gpair_append ?_ ?_ ?_) ?_ ?_) ?_ ?_) ?_ ?_) ?_ ?_
    · exact List.chain'_singleton dq
    · exact chain_gpair_no_colon _ (fun c hc => alphanum_ne_char (hk c hc) (by decide))
    · exact head_not_colon_alphanum hk
    · exact chain_of_gchainB _ (by decide)
    · intro c hc
      simp at hc
      subst hc
      decide
    · exact chain_gpair_no_colon _ (fun c hc => alphanum_ne_char (hv c hc) (by decide))
    · exact head_not_colon_alphanum hv
    · exact chain_of_gchainB _ (by decide)
    · intro c hc
      simp at hc
      subst hc
      decide
    · exact ih
    · exact serializeFields_head_ne_colon (p2 :: ps')

theorem matchKeyAt_none_of_chain (l : List Char) (hg : List.Chain' gpair l) :
    matchKeyAt l = none := by
  unfold matchKeyAt
  by_cases hw : ((l.dropWhile isWs).takeWhile isWord).isEmpty
  · simp only [hw, if_true]
  · simp only [hw, Bool.false_eq_true, if_false]
    cases hr3 : (((l.dropWhile isWs).dropWhile isWord).dropWhile isWs) with
    | nil => rfl
    | cons c3 r =>
      show (if c3 = ':' then _ else _) = _
      by_cases hc3 : c3 = ':'
      · exfalso
        subst hc3
        have e1 : l.takeWhile isWs ++ l.dropWhile isWs = l :=
          List.takeWhile_append_dropWhile isWs l
        have e2 : (l.dropWhile isWs).takeWhile isWord ++
            (l.dropWhile isWs).dropWhile isWord = l.dropWhile isWs :=
          List.takeWhile_append_dropWhile isWord (l.dropWhile isWs)
        have e3 : ((l.dropWhile isWs).dropWhile isWord).takeWhile isWs ++ ':' :: r =
            (l.dropWhile isWs).dropWhile isWord := by
          rw [← hr3]
          exact List.takeWhile_append_dropWhile isWs ((l.dropWhile isWs).dropWhile isWord)
        have hdec : l.takeWhile isWs ++ ((l.dropWhile isWs).takeWhile isWord ++
            (((l.dropWhile isWs).dropWhile isWord).takeWhile isWs ++ ':' :: r)) = l := by
          rw [e3, e2, e1]
        rw [← hdec] at hg
        have c1 := (List.chain'_append.mp hg).2.1
        have c2 := (List.chain'_append.mp c1).2.1
        by_cases hBnil : ((l.dropWhile isWs).dropWhile isWord).takeWhile isWs = []
        · have hbound := (List.chain'_append.mp c1).2.2
          have hwne : (l.dropWhile isWs).takeWhile isWord ≠ [] := by
            intro hnil
            exact hw (by rw [hnil]; rfl)
          obtain ⟨x, hx⟩ :=
            Option.isSome_iff_exists.mp (List.getLast?_isSome.mpr hwne)
          have hg1 : gpair x ':' := hbound x hx ':' (by rw [hBnil]; rfl)
          have hxw : x ∈ (l.dropWhile isWs).takeWhile isWord :=
            List.mem_of_getLast?_eq_some hx
          have hword : isWord x = true := List.mem_takeWhile_imp hxw
          rw [hg1 rfl] at hword
          exact absurd hword (by decide)
        · have hbound := (List.chain'_append.mp c2).2.2
          obtain ⟨x, hx⟩ :=
            Option.isSome_iff_exists.mp (List.getLast?_isSome.mpr hBnil)
          have hg1 : gpair x ':' := hbound x hx ':' rfl
          have hxB : x ∈ ((l.dropWhile isWs).dropWhile isWord).takeWhile isWs :=
            List.mem_of_getLast?_eq_some hx
          have hws : isWs x = true := List.mem_takeWhile_imp hxB
          rw [hg1 rfl] at hws
          exact absurd hws (by decide)
      · rw [if_neg hc3]

theorem quoteBareKeysF_eq_self_chain : ∀ (f : Nat) (l : List Char),
    List.Chain' gpair l → quoteBareKeysF f l = l
  | 0, _, _ => rfl
  | _ + 1, [], _ => rfl
  | f + 1, x :: xs, h => by
    unfold quoteBareKeysF
    rw [matchKeyAt_none_of_chain _ h]
    rw [quoteBareKeysF_eq_self_chain f xs h.tail]

theorem serializeAction_chain (tool : String) (ps : List (String × String))
    (htool : ∀ c ∈ tool.data, c.isAlphanum = true)
    (hps : ∀ kv ∈ ps, (∀ c ∈ (kv.1 : String).data, c.isAlphanum = true) ∧
      (∀ c ∈ (kv.2 : String).data, c.isAlphanum = true)) :
    List.Chain' gpair (serializeAction tool ps) := by
  unfold serializeAction
  refine chain_gpair_append (chain_gpair_append (chain_gpair_append
    (chain_gpair_append ?_ ?_ ?_) ?_ ?_) ?_ ?_) ?_ ?_
  · exact chain_of_gchainB _ (by decide)
  · exact chain_gpair_no_colon _ (fun c hc => alphanum_ne_char (htool c hc) (by decide))
  · exact head_not_colon_alphanum htool
  · exact chain_of_gchainB _ (by decide)
  · intro c hc
    simp at hc
    subst hc
    decide
  · exact serializeFields_chain ps hps
  · exact serializeFields_head_ne_colon ps
  · exact chain_of_gchainB _ (by decide)
  · intro c hc
    simp at hc
    subst hc
    decide

theorem serializeFields_ok : ∀ (ps : List (String × String)),
    (∀ kv ∈ ps, (∀ c ∈ (kv.1 : String).data, c.isAlphanum = true) ∧
      (∀ c ∈ (kv.2 : String).data, c.isAlphanum = true)) →
    ∀ c ∈ serializeFields ps, okChar c = true
  | [], _ => by simp [serializeFields]
  | [(k, v)], h => by
    intro c hc
    simp only [serializeFields, List.mem_append] at hc
    rcases hc with (((hc | hc) | hc) | hc) | hc
    · simp at hc
      subst hc
      decide
    · exact okChar_of_alphanum ((h (k, v) (by simp)).1 c hc)
    · exact (by decide : ∀ x ∈ ("\": \"").data, okChar x = true) c hc
    · exact okChar_of_alphanum ((h (k, v) (by simp)).2 c hc)
    · simp at hc
      subst hc
      decide
  | (k, v) :: p2 :: ps', h => by
    intro c hc
    simp only [serializeFields, List.mem_append] at hc
    rcases hc with ((((hc | hc) | hc) | hc) | hc) | hc
    · simp at hc
      subst hc
      decide
    · exact okChar_of_alphanum ((h (k, v) (by simp)).1 c hc)
    · exact (by decide : ∀ x ∈ ("\": \"").data, okChar x = true) c hc
    · exact okChar_of_alphanum ((h (k, v) (by simp)).2 c hc)
    · exact (by decide : ∀ x ∈ ("\", ").data, okChar x = true) c hc
    · exact serializeFields_ok (p2 :: ps') (fun kv hkv => h kv (by simp [hkv])) c hc

theorem serializeAction_ok (tool : String) (ps : List (String × String))
    (htool : ∀ c ∈ tool.data, c.isAlphanum = true)
    (hps : ∀ kv ∈ ps, (∀ c ∈ (kv.1 : String).data, c.isAlphanum = true) ∧
      (∀ c ∈ (kv.2 : String).data, c.isAlphanum = true)) :
    ∀ c ∈ serializeAction tool ps, okChar c = true := by
  intro c hc
  unfold serializeAction at hc
  simp only [List.mem_append] at hc
  rcases hc with (((hc | hc) | hc) | hc) | hc
  · exact (by decide : ∀ x ∈ ("\x7b\"tool\": \"").data, okChar x = true) c hc
  · exact okChar_of_alphanum (htool c hc)
  · exact (by decide : ∀ x ∈ ("\", \"parameters\": \x7b").data, okChar x = true) c hc
  · exact serializeFields_ok ps hps c hc
  · exact (by decide : ∀ x ∈ ("\x7d\x7d").data, okChar x = true) c hc

theorem serializeAction_cons_shape (tool : String) (ps : List (String × String)) :
    ∃ t, serializeAction tool ps = lb :: t :=
  ⟨("\"tool\": \"").data ++ tool.data ++ ("\", \"parameters\": \x7b").data ++
    serializeFields ps ++ ("\x7d\x7d").data, by
      unfold serializeAction
      have h1 : ("\x7b\"tool\": \"").data = lb :: ("\"tool\": \"").data := rfl
      rw [h1]
      simp⟩

theorem serializeAction_last_shape (tool : String) (ps : List (String × String)) :
    ∃ x, serializeAction tool ps = x ++ [rb] := by
  refine ⟨("\x7b\"tool\": \"").data ++ tool.data ++ ("\", \"parameters\": \x7b").data ++
    serializeFields ps ++ [rb], ?_⟩
  unfold serializeAction
  have h1 : ("\x7d\x7d").data = [rb] ++ [rb] := rfl
  rw [h1]
  simp

theorem stripWs_serializeAction (tool : String) (ps : List (String × String)) :
    stripWs (serializeAction tool ps) = serializeAction tool ps := by
  obtain ⟨t, ht⟩ := serializeAction_cons_shape tool ps
  obtain ⟨x, hx⟩ := serializeAction_last_shape tool ps
  unfold stripWs
  have h1 : List.dropWhile isWs (serializeAction tool ps) = serializeAction tool ps := by
    rw [ht, List.dropWhile_cons]
    simp [show isWs lb = false from rfl]
  rw [h1, hx, rstripWs_eq_self_last_rb, ← hx]


theorem parseVal_strVal (g : Nat) (v : String) (rest : List Char)
    (hv : ∀ c ∈ v.data, c.isAlphanum = true) :
    parseVal (g + 1) (' ' :: dq :: (v.data ++ dq :: rest)) = some (Json.str v, rest) := by
  show (match parseStringBody (v.data ++ dq :: rest) with
    | some (s, r) => some (Json.str (String.mk s), r)
    | none => none) = some (Json.str v, rest)
  rw [parseStringBody_alphanum v.data rest hv]

theorem serializeFields_cons_shape (p : String × String) (rest : List (String × String)) :
    ∃ t, serializeFields (p :: rest) = dq :: t := by
  obtain ⟨k, v⟩ := p
  cases rest with
  | nil => exact ⟨_, rfl⟩
  | cons p2 ps2 => exact ⟨_, rfl⟩

theorem serializeFields_single_append (k v : String) (X : List Char) :
    serializeFields [(k, v)] ++ X =
      dq :: (k.data ++ (dq :: ':' :: ' ' :: dq :: (v.data ++ dq :: X))) := by
  show ([dq] ++ k.data ++ ("\": \"").data ++ v.data ++ [dq]) ++ X = _
  rw [show ("\": \"").data = dq :: ':' :: ' ' :: dq :: [] from rfl]
  simp [List.append_assoc]

theorem serializeFields_cons_append (k v : String) (p2 : String × String)
    (ps2 : List (String × String)) (X : List Char) :
    serializeFields ((k, v) :: p2 :: ps2) ++ X =
      dq :: (k.data ++ (dq :: ':' :: ' ' :: dq ::
        (v.data ++ dq :: ',' :: ' ' :: (serializeFields (p2 :: ps2) ++ X)))) := by
  show ([dq] ++ k.data ++ ("\": \"").data ++ v.data ++ ("\", ").data ++ serializeFields (p2 :: ps2)) ++ X = _
  rw [show ("\": \"").data = dq :: ':' :: ' ' :: dq :: [] from rfl,
    show ("\", ").data = dq :: ',' :: ' ' :: [] from rfl]
  simp [List.append_assoc]

theorem skipWs_space_fields (p : String × String) (rest : List (String × String)) (X : List Char) :
    skipWs (' ' :: (serializeFields (p :: rest) ++ X)) = serializeFields (p :: rest) ++ X := by
  obtain ⟨t0, ht0⟩ := serializeFields_cons_shape p rest
  rw [ht0, List.cons_append, skipWs_cons_ws (show isWs ' ' = true from rfl),
    skipWs_cons_not_ws (show isWs dq = false from rfl)]

theorem parseMembers_vstep (f : Nat) (acc : List (String × Json)) (k : String) (val : Json)
    (after rest4 : List Char)
    (hk : ∀ c ∈ k.data, c.isAlphanum = true)
    (hfresh : ∀ p ∈ acc, ¬ p.1 = k)
    (hval : parseVal (f + 1) after = some (val, rest4)) :
    parseMembers (f + 2) acc (dq :: (k.data ++ (dq :: ':' :: after))) =
      (match skipWs rest4 with
       | c3 :: r6 =>
         if c3 = ',' then parseMembers (f + 1) (acc ++ [(k, val)]) (skipWs r6)
         else if c3 = rb then some (Json.obj (acc ++ [(k, val)]), r6)
         else none
       | [] => none) := by
  show (match parseStringBody (k.data ++ (dq :: ':' :: after)) with
    | some (key, r1) =>
      match skipWs r1 with
      | c2 :: r3 =>
        if c2 = ':' then
          match parseVal (f + 1) r3 with
          | some (v, r4) =>
            match skipWs r4 with
            | c3 :: r6 =>
              if c3 = ',' then parseMembers (f + 1) (assocSet acc (String.mk key) v) (skipWs r6)
              else if c3 = rb then some (Json.obj (assocSet acc (String.mk key) v), r6)
              else none
            | [] => none
          | none => none
        else none
      | [] => none
    | none => none) = _
  rw [parseStringBody_alphanum k.data (':' :: after) hk]
  show (match skipWs (':' :: after) with
    | c2 :: r3 =>
      if c2 = ':' then
        match parseVal (f + 1) r3 with
        | some (v, r4) =>
          match skipWs r4 with
          | c3 :: r6 =>
            if c3 = ',' then parseMembers (f + 1) (assocSet acc (String.mk k.data) v) (skipWs r6)
            else if c3 = rb then some (Json.obj (assocSet acc (String.mk k.data) v), r6)
            else none
          | [] => none
        | none => none
      else none
    | [] => none) = _
  rw [skipWs_cons_not_ws (show isWs ':' = false from rfl)]
  show (if (':' : Char) = ':' then
      (match parseVal (f + 1) after with
       | some (v, r4) =>
         match skipWs r4 with
         | c3 :: r6 =>
           if c3 = ',' then parseMembers (f + 1) (assocSet acc (String.mk k.data) v) (skipWs r6)
           else if c3 = rb then some (Json.obj (assocSet acc (String.mk k.data) v), r6)
           else none
         | [] => none
       | none => none)
    else none) = _
  rw [if_pos rfl, hval]
  show (match skipWs rest4 with
    | c3 :: r6 =>
      if c3 = ',' then parseMembers (f + 1) (assocSet acc (String.mk k.data) val) (skipWs r6)
      else if c3 = rb then some (Json.obj (assocSet acc (String.mk k.data) val), r6)
      else none
    | [] => none) = _
  simp only [mk_data_eq, assocSet_fresh acc k val hfresh]


theorem parseMembers_fields : ∀ (ps : List (String × String)) (g : Nat)
    (acc : List (String × Json)) (tail : List Char),
    ps ≠ [] → ps.length + 1 ≤ g →
    (∀ kv ∈ ps, (∀ c ∈ (kv.1 : String).data, c.isAlphanum = true) ∧
      (∀ c ∈ (kv.2 : String).data, c.isAlphanum = true)) →
    (∀ kv ∈ ps, ∀ p ∈ acc, ¬ p.1 = kv.1) →
    (ps.map Prod.fst).Nodup →
    parseMembers g acc (serializeFields ps ++ rb :: tail) =
      some (Json.obj (acc ++ ps.map (fun kv => (kv.1, Json.str kv.2))), tail)
  | [], _, _, _, hne, _, _, _, _ => absurd rfl hne
  | [(k, v)], g, acc, tail, _, hg, hcs, hfresh, _ => by
    have hg2 : 2 ≤ g := by simpa using hg
    obtain ⟨f, rfl⟩ : ∃ f, g = f + 2 := ⟨g - 2, by omega⟩
    rw [serializeFields_single_append k v (rb :: tail)]
    rw [parseMembers_vstep f acc k (Json.str v) (' ' :: dq :: (v.data ++ dq :: rb :: tail))
      (rb :: tail) (hcs (k, v) (by simp)).1 (hfresh (k, v) (by simp))
      (parseVal_strVal f v (rb :: tail) (hcs (k, v) (by simp)).2)]
    show (if (rb : Char) = ',' then _ else _) = _
    rw [if_neg (show ¬ ((rb : Char) = ',') from by decide), if_pos rfl]
    rfl
  | (k, v) :: p2 :: ps2, g, acc, tail, _, hg, hcs, hfresh, hnodup => by
    have hg2 : ps2.length + 3 ≤ g := by simpa using hg
    obtain ⟨f, rfl⟩ : ∃ f, g = f + 2 := ⟨g - 2, by omega⟩
    rw [serializeFields_cons_append k v p2 ps2 (rb :: tail)]
    rw [parseMembers_vstep f acc k (Json.str v)
      (' ' :: dq :: (v.data ++ dq :: ',' :: ' ' :: (serializeFields (p2 :: ps2) ++ rb :: tail)))
      (',' :: ' ' :: (serializeFields (p2 :: ps2) ++ rb :: tail))
      (hcs (k, v) (by simp)).1 (hfresh (k, v) (by simp))
      (parseVal_strVal f v (',' :: ' ' :: (serializeFields (p2 :: ps2) ++ rb :: tail))
        (hcs (k, v) (by simp)).2)]
    show (if (',' : Char) = ',' then _ else _) = _
    rw [if_pos rfl]
    rw [skipWs_space_fields p2 ps2 (rb :: tail)]
    have hcs2 : ∀ kv ∈ p2 :: ps2, (∀ c ∈ (kv.1 : String).data, c.isAlphanum = true) ∧
        (∀ c ∈ (kv.2 : String).data, c.isAlphanum = true) :=
      fun kv hkv => hcs kv (by simp [hkv])
    have hnd : (k, v).1 ∉ (p2 :: ps2).map Prod.fst ∧ ((p2 :: ps2).map Prod.fst).Nodup := by
      rw [List.map_cons, List.nodup_cons] at hnodup
      exact hnodup
    have hfresh2 : ∀ kv ∈ p2 :: ps2, ∀ p ∈ acc ++ [(k, Json.str v)], ¬ p.1 = kv.1 := by
      intro kv hkv p hp
      rcases List.mem_append.mp hp with hpa | hpb
      · exact hfresh kv (by simp [hkv]) p hpa
      · rw [List.mem_singleton] at hpb
        subst hpb
        intro he
        have he2 : k = kv.1 := he
        exact hnd.1 (by rw [show (k, v).1 = k from rfl, he2]
                        exact List.mem_map_of_mem Prod.fst hkv)
    rw [parseMembers_fields (p2 :: ps2) (f + 1) (acc ++ [(k, Json.str v)]) tail (by simp)
      (by simp only [List.length_cons]; omega) hcs2 hfresh2 hnd.2]
    rw [List.append_assoc]
    rfl

theorem parseVal_objVal (g : Nat) (ps : List (String × String)) (tail : List Char)
    (hg : ps.length + 1 ≤ g)
    (hps : ∀ kv ∈ ps, (∀ c ∈ (kv.1 : String).data, c.isAlphanum = true) ∧
      (∀ c ∈ (kv.2 : String).data, c.isAlphanum = true))
    (hnodup : (ps.map Prod.fst).Nodup) :
    parseVal (g + 1) (' ' :: lb :: (serializeFields ps ++ rb :: tail)) =
      some (Json.obj (ps.map (fun kv => (kv.1, Json.str kv.2))), tail) := by
  cases ps with
  | nil => rfl
  | cons p ps2 =>
    obtain ⟨t0, ht0⟩ := serializeFields_cons_shape p ps2
    rw [ht0, List.cons_append]
    show parseMembers g [] (dq :: (t0 ++ rb :: tail)) = _
    rw [← List.cons_append, ← ht0]
    exact parseMembers_fields (p :: ps2) g [] tail (by simp) hg hps (by simp) hnodup


theorem serializeAction_normal (tool : String) (ps : List (String × String)) :
    serializeAction tool ps =
      lb :: (dq :: (("tool").data ++ (dq :: ':' :: ' ' :: dq ::
        (tool.data ++ dq :: ',' :: ' ' :: dq ::
          (("parameters").data ++ (dq :: ':' :: ' ' :: lb ::
            (serializeFields ps ++ rb :: [rb]))))))) := by
  show ("\x7b\"tool\": \"").data ++ tool.data ++ ("\", \"parameters\": \x7b").data ++
      serializeFields ps ++ ("\x7d\x7d").data = _
  rw [show ("\x7b\"tool\": \"").data =
        lb :: dq :: 't' :: 'o' :: 'o' :: 'l' :: dq :: ':' :: ' ' :: dq :: [] from rfl,
    show ("\", \"parameters\": \x7b").data =
        dq :: ',' :: ' ' :: dq :: 'p' :: 'a' :: 'r' :: 'a' :: 'm' :: 'e' :: 't' :: 'e' :: 'r' ::
          's' :: dq :: ':' :: ' ' :: lb :: [] from rfl,
    show ("\x7d\x7d").data = rb :: rb :: [] from rfl,
    show ("tool").data = 't' :: 'o' :: 'o' :: 'l' :: [] from rfl,
    show ("parameters").data =
        'p' :: 'a' :: 'r' :: 'a' :: 'm' :: 'e' :: 't' :: 'e' :: 'r' :: 's' :: [] from rfl]
  simp [List.append_assoc]

theorem serializeFields_length_ge : ∀ (ps : List (String × String)),
    ps.length ≤ (serializeFields ps).length
  | [] => by simp [serializeFields]
  | [(k, v)] => by
    rw [show serializeFields [(k, v)] =
      [dq] ++ k.data ++ ("\": \"").data ++ v.data ++ [dq] from rfl]
    simp only [List.length_append, List.length_cons, List.length_nil]
    have e1 : (("\": \"").data).length = 4 := rfl
    omega
  | (k, v) :: p2 :: ps2 => by
    have ih := serializeFields_length_ge (p2 :: ps2)
    rw [show serializeFields ((k, v) :: p2 :: ps2) =
      [dq] ++ k.data ++ ("\": \"").data ++ v.data ++ ("\", ").data ++
        serializeFields (p2 :: ps2) from rfl]
    simp only [List.length_append, List.length_cons, List.length_nil] at ih ⊢
    have e1 : (("\": \"").data).length = 4 := rfl
    have e2 : (("\", ").data).length = 3 := rfl
    omega

theorem serializeAction_fuel (tool : String) (ps : List (String × String)) :
    ps.length + 5 ≤ 2 * (serializeAction tool ps).length + 2 := by
  have h1 := serializeFields_length_ge ps
  have h2 : (serializeFields ps).length + 12 ≤ (serializeAction tool ps).length := by
    show _ ≤ (("\x7b\"tool\": \"").data ++ tool.data ++ ("\", \"parameters\": \x7b").data ++
      serializeFields ps ++ ("\x7d\x7d").data).length
    simp [List.length_append]
    omega
  omega

theorem parseVal_action (tool : String) (ps : List (String × String)) (N : Nat)
    (hN : ps.length + 5 ≤ N)
    (htool : ∀ c ∈ tool.data, c.isAlphanum = true)
    (hps : ∀ kv ∈ ps, (∀ c ∈ (kv.1 : String).data, c.isAlphanum = true) ∧
      (∀ c ∈ (kv.2 : String).data, c.isAlphanum = true))
    (hnodup : (ps.map Prod.fst).Nodup) :
    parseVal N (serializeAction tool ps) = some (actionJson tool ps, []) := by
  obtain ⟨A, hA, rfl⟩ : ∃ A, ps.length ≤ A ∧ N = A + 5 := ⟨N - 5, by omega, by omega⟩
  rw [serializeAction_normal tool ps]
  show parseMembers (A + 4) []
    (dq :: (("tool").data ++ (dq :: ':' :: ' ' :: dq ::
      (tool.data ++ dq :: ',' :: ' ' :: dq ::
        (("parameters").data ++ (dq :: ':' :: ' ' :: lb ::
          (serializeFields ps ++ rb :: [rb]))))))) = some (actionJson tool ps, [])
  rw [show A + 4 = (A + 2) + 2 from rfl]
  rw [parseMembers_vstep (A + 2) [] "tool" (Json.str tool)
    (' ' :: dq :: (tool.data ++ dq :: ',' :: ' ' :: dq ::
      (("parameters").data ++ (dq :: ':' :: ' ' :: lb :: (serializeFields ps ++ rb :: [rb])))))
    (',' :: ' ' :: dq ::
      (("parameters").data ++ (dq :: ':' :: ' ' :: lb :: (serializeFields ps ++ rb :: [rb]))))
    (by decide) (by simp)
    (parseVal_strVal (A + 2) tool
      (',' :: ' ' :: dq ::
        (("parameters").data ++ (dq :: ':' :: ' ' :: lb :: (serializeFields ps ++ rb :: [rb]))))
      htool)]
  show (if (',' : Char) = ',' then _ else _) = _
  rw [if_pos rfl]
  simp only [List.nil_append]
  rw [skipWs_cons_ws (show isWs ' ' = true from rfl),
    skipWs_cons_not_ws (show isWs dq = false from rfl)]
  rw [show (A + 2) + 1 = (A + 1) + 2 from rfl]
  rw [parseMembers_vstep (A + 1) [("tool", Json.str tool)] "parameters"
    (Json.obj (ps.map (fun kv => (kv.1, Json.str kv.2))))
    (' ' :: lb :: (serializeFields ps ++ rb :: [rb])) [rb]
    (by decide)
    (by intro p hp
        rw [List.mem_singleton] at hp
        subst hp
        intro he
        have he2 : ("tool" : String) = "parameters" := he
        exact absurd he2 (by decide))
    (parseVal_objVal (A + 1) ps [rb] (by omega) hps hnodup)]
  show (if (rb : Char) = ',' then _ else _) = _
  rw [if_neg (show ¬ ((rb : Char) = ',') from by decide), if_pos rfl]
  rfl

theorem jsonLoads_action (tool : String) (ps : List (String × String))
    (htool : ∀ c ∈ tool.data, c.isAlphanum = true)
    (hps : ∀ kv ∈ ps, (∀ c ∈ (kv.1 : String).data, c.isAlphanum = true) ∧
      (∀ c ∈ (kv.2 : String).data, c.isAlphanum = true))
    (hnodup : (ps.map Prod.fst).Nodup) :
    jsonLoads (serializeAction tool ps) = some (actionJson tool ps) := by
  unfold jsonLoads
  rw [parseVal_action tool ps (2 * (serializeAction tool ps).length + 2)
    (serializeAction_fuel tool ps) htool hps hnodup]
  rfl


theorem normalizedOf_action (pre post : List Char) (tag : Bool) (tool : String)
    (ps : List (String × String))
    (hpre : ∀ c ∈ pre, ¬ c = bq)
    (htool : ∀ c ∈ tool.data, c.isAlphanum = true)
    (hps : ∀ kv ∈ ps, (∀ c ∈ (kv.1 : String).data, c.isAlphanum = true) ∧
      (∀ c ∈ (kv.2 : String).data, c.isAlphanum = true)) :
    normalizedOf (pre ++ bq :: bq :: bq :: ((if tag then ("json").data else []) ++
      '\n' :: serializeAction tool ps ++ '\n' :: bq :: bq :: bq :: post)) =
      serializeAction tool ps := by
  obtain ⟨t, ht⟩ := serializeAction_cons_shape tool ps
  obtain ⟨x, hx⟩ := serializeAction_last_shape tool ps
  have hok := serializeAction_ok tool ps htool hps
  have hnbq : ∀ c ∈ serializeAction tool ps, ¬ c = bq :=
    fun c hc => okChar_ne (hok c hc) (by decide)
  rw [ht] at hnbq hx
  have htry : tryFenceAt ((if tag then ("json").data else []) ++
      '\n' :: (lb :: t) ++ '\n' :: bq :: bq :: bq :: post) = some (lb :: t) :=
    tryFenceAt_payload tag t x post hnbq hx
  rw [← ht] at htry
  have hfen := fencedSearch_boundary pre _ _ hpre htry
  unfold normalizedOf candidateOf
  rw [hfen]
  show quoteBareKeys (fixQuotedKeys (stripWs (serializeAction tool ps))) =
    serializeAction tool ps
  rw [stripWs_serializeAction]
  unfold fixQuotedKeys
  rw [fixQuotedKeysF_eq_self _ _ (fun c hc => okChar_ne (hok c hc) (by decide))]
  unfold quoteBareKeys
  rw [quoteBareKeysF_eq_self_chain _ _ (serializeAction_chain tool ps htool hps)]

/-- C3 (amended; the round-trip holds for the canonical serialized actions
the system prompt requests — alphanumeric tool name, alphanumeric parameter
keys and values, distinct keys — embedded in an optionally json-tagged
fenced code block with any backtick-free leading prose and any trailing
text; a parameter value containing a colon or brace breaks it): for every
text of that shape, parse_json returns exactly the embedded action object:
its tool name and its full parameters mapping. -/
theorem parser_roundtrip (txt : String) (pre post : List Char) (tag : Bool) (tool : String)
    (ps : List (String × String))
    (htxt : txt.data = pre ++ bq :: bq :: bq :: ((if tag then ("json").data else []) ++
      '\n' :: serializeAction tool ps ++ '\n' :: bq :: bq :: bq :: post))
    (hpre : ∀ c ∈ pre, ¬ c = bq)
    (htool : ∀ c ∈ tool.data, c.isAlphanum = true)
    (hps : ∀ kv ∈ ps, (∀ c ∈ (kv.1 : String).data, c.isAlphanum = true) ∧
      (∀ c ∈ (kv.2 : String).data, c.isAlphanum = true))
    (hnodup : (ps.map Prod.fst).Nodup) :
    parse_json txt = actionJson tool ps := by
  unfold parse_json
  rw [htxt, normalizedOf_action pre post tag tool ps hpre htool hps,
    jsonLoads_action tool ps htool hps hnodup]

/-- C3 counterexample: a well-formed structured action object inside a
tagged fenced code block whose parameter value contains a colon and a
closing brace.  The bare-key normalization rewrites the word before the
colon INSIDE the quoted value, the strict decode of the mangled candidate
fails, and the regex fallback drops the parameter (its quoted value is cut
at the closing brace), so the parser returns the action with an empty
parameters mapping instead of the embedded one. -/
theorem parser_roundtrip_cex :
    parse_json "```json\n\x7b\"tool\": \"T\", \"parameters\": \x7b\"a\": \"b:\x7d\"\x7d\x7d\n```" =
      Json.obj [("tool", Json.str "T"), ("parameters", Json.obj [])] ∧
    parse_json "```json\n\x7b\"tool\": \"T\", \"parameters\": \x7b\"a\": \"b:\x7d\"\x7d\x7d\n```" ≠
      actionJson "T" [("a", "b:\x7d")] := by
  refine ⟨rfl, ?_⟩
  intro h
  have hb := congrArg (fun j => match j with
    | Json.obj (_ :: (_, Json.obj l) :: _) => l.length
    | _ => 0) h
  revert hb
  decide

/-- C3 witness: the round-trip at the concrete action of the claim — prose,
a json-tagged fence, the TimestampTool action with an iso format parameter —
recovers exactly that tool name and parameters mapping. -/
theorem parser_roundtrip_witness :
    parse_json (String.mk (("Sure!\n").data ++ bq :: bq :: bq ::
      ((if true then ("json").data else []) ++
        '\n' :: serializeAction "TimestampTool" [("format", "iso")] ++
        '\n' :: bq :: bq :: bq :: ("\n").data))) =
      actionJson "TimestampTool" [("format", "iso")] :=
  parser_roundtrip _ ("Sure!\n").data ("\n").data true "TimestampTool"
    [("format", "iso")] rfl (by decide) (by decide) (by decide) (by decide)

end AgentFramework